import Mathlib

/-!
# Verification of the audio_autoeditor alignment, conflict and RPP-export services

A shallow embedding of `app/services/alignment.py`, `app/services/conflict.py`
and `app/services/rpp.py` from the audio_autoeditor repository, together with
proofs of the specification claims about them.

Modelling conventions:
* Python floats (word timestamps, confidences, positions) are modelled as
  rationals `ℚ`; the code only adds, subtracts and compares them.
* Python dicts with a fixed key set (transcript words, aligned segments,
  conflict records) are modelled as structures.
* Python's stable `list.sort` / `sorted` is modelled by the stable
  `List.insertionSort` (a stable sort is uniquely determined by its
  comparator, so any stable sort is extensionally the same function).
* `difflib.SequenceMatcher` (with `isjunk=None`, `autojunk=False`) is embedded
  in full: `find_longest_match`, `get_matching_blocks` (with the adjacent-block
  merge and the `(la, lb, 0)` sentinel) and `get_opcodes`.
-/

namespace AudioAutoeditor

/-- A transcribed word with timing, as produced by `transcribe_audio`:
the Python dict `{"word": str, "start": float, "end": float, "confidence": float}`.
The `end` key is called `stop` here because `end` is a Lean keyword. -/
structure TranscriptWord where
  word : String
  start : ℚ
  stop : ℚ
  confidence : ℚ
  deriving DecidableEq, Inhabited, Repr

/-- An aligned segment dict as built by `align_transcript_to_manuscript` (and
later consumed by `detect_conflicts` / `build_conformed_items`, by which time
the row also carries an `audio_file_id`). -/
structure AlignedSegment where
  text : String
  expected_text : String
  start_time : ℚ
  end_time : ℚ
  confidence : ℚ
  segment_type : String
  segment_index : Nat
  alignment : String
  audio_file_id : Option Nat := none
  deriving DecidableEq, Inhabited, Repr

/-- The apostrophe character (code point 39), kept by both normalizers. -/
def apostropheChar : Char := Char.ofNat 39

/-- Python's regex class `\w` (word character): modelled as alphanumeric or
underscore. -/
def isWordChar (c : Char) : Bool := c.isAlphanum || c == '_'

/-- `_normalize_word`: `re.sub(r"[^\w']", "", word.lower().strip())`.
The `strip()` is subsumed by the regex substitution (whitespace is neither a
word character nor an apostrophe, so it is removed anyway). -/
def normalize_word (w : String) : String :=
  String.mk ((w.data.map Char.toLower).filter fun c => isWordChar c || c == apostropheChar)

/-- Splitting a character list into its maximal non-whitespace runs (the
semantics of Python's argumentless `str.split()`), accumulating the current
run in `acc`. -/
def splitWordsAux : List Char → List Char → List String
  | [], acc => if acc = [] then [] else [String.mk acc]
  | c :: cs, acc =>
    if c.isWhitespace then
      (if acc = [] then [] else [String.mk acc]) ++ splitWordsAux cs []
    else splitWordsAux cs (acc ++ [c])

/-- `_normalize_text_to_words`: punctuation (anything outside `[\w\s']`) is
replaced by a space, the text is split on whitespace runs (Python collapses
whitespace, strips and splits — the same thing), and each word is
normalized, keeping only the non-empty results. -/
def normalize_text_to_words (text : String) : List String :=
  let cleaned := text.data.map fun c =>
    if isWordChar c || c.isWhitespace || c == apostropheChar then c else ' '
  ((splitWordsAux cleaned []).map normalize_word).filter fun w => w ≠ ""

/-- `_estimate_missing_time(transcript_words, i1, i2)`: the start time of
`transcript_words[i2]` if it exists, else the end time of
`transcript_words[i1 - 1]` if `i1 > 0`, else `0.0`. -/
def estimate_missing_time (tws : List TranscriptWord) (i1 i2 : Nat) : ℚ :=
  if i2 < tws.length then (tws.getD i2 default).start
  else if 0 < i1 then (tws.getD (i1 - 1) default).stop
  else 0

/-! ## The `difflib.SequenceMatcher` embedding

`SequenceMatcher(None, a, b, autojunk=False)` with `a`, `b` lists of strings.
With no junk, `b2j` maps each element of `b` to the ascending list of all its
indices in `b`, and the two junk-extension loops of `find_longest_match` are
no-ops while the two non-junk extension loops are kept. -/

/-- `b2j[x]`: all indices `j` with `b[j] = x`, in ascending order. -/
def occList (b : List String) (x : String) : List Nat :=
  (List.range b.length).filter fun j => b.getD j "" == x

/-- The inner loop of `find_longest_match` over the candidate `j` list for one
row `i`: entries `j < blo` are skipped (`continue`), the ascending scan stops
at the first `j ≥ bhi` (`break`); otherwise `k = j2len.get(j-1, 0) + 1` is
recorded in the new map and the best triple is updated when `k > bestsize`.
Python's `i - k + 1` / `j - k + 1` are written `i + 1 - k` / `j + 1 - k`
(equal values; no Nat truncation, since a run of length `k` ending at `(i, j)`
has `k ≤ i + 1` and `k ≤ j + 1`). -/
def flmInner (blo bhi i : Nat) (old : Nat → Nat) :
    List Nat → (Nat → Nat) → Nat × Nat × Nat → (Nat → Nat) × (Nat × Nat × Nat)
  | [], newm, best => (newm, best)
  | j :: js, newm, best =>
    if j < blo then flmInner blo bhi i old js newm best
    else if bhi ≤ j then (newm, best)
    else
      let k := (if j = 0 then 0 else old (j - 1)) + 1
      let newm' := fun x => if x = j then k else newm x
      let best' := if best.2.2 < k then (i + 1 - k, j + 1 - k, k) else best
      flmInner blo bhi i old js newm' best'

/-- The outer loop of `find_longest_match` over rows `i ∈ [alo, ahi)`:
each row starts a fresh `newj2len` (here `fun _ => 0`) and installs it as
`j2len` for the next row. -/
def flmOuter (a b : List String) (blo bhi : Nat) :
    List Nat → (Nat → Nat) → Nat × Nat × Nat → (Nat → Nat) × (Nat × Nat × Nat)
  | [], m, best => (m, best)
  | i :: is, m, best =>
    let st := flmInner blo bhi i m (occList b (a.getD i "")) (fun _ => 0) best
    flmOuter a b blo bhi is st.1 st.2

/-- The first non-junk extension loop of `find_longest_match`:
`while besti > alo and bestj > blo and a[besti-1] == b[bestj-1]`, extend the
match one element to the left.  Structural recursion on `besti`. -/
def flmExtendLeft (a b : List String) (alo blo : Nat) :
    Nat → Nat → Nat → Nat × Nat × Nat
  | 0, bestj, bestsize => (0, bestj, bestsize)
  | bi + 1, bestj, bestsize =>
    if alo < bi + 1 && blo < bestj && (a.getD bi "" == b.getD (bestj - 1) "") then
      flmExtendLeft a b alo blo bi (bestj - 1) (bestsize + 1)
    else (bi + 1, bestj, bestsize)

/-- The second non-junk extension loop of `find_longest_match`:
`while besti+bestsize < ahi and bestj+bestsize < bhi and
a[besti+bestsize] == b[bestj+bestsize]`, extend the match to the right.
The fuel argument is exactly `ahi - besti - bestsize`, so `fuel = 0` is the
loop condition `besti + bestsize < ahi` failing. -/
def flmExtendRight (a b : List String) (bhi besti bestj : Nat) :
    Nat → Nat → Nat
  | 0, bestsize => bestsize
  | fuel + 1, bestsize =>
    if bestj + bestsize < bhi && (a.getD (besti + bestsize) "" == b.getD (bestj + bestsize) "") then
      flmExtendRight a b bhi besti bestj fuel (bestsize + 1)
    else bestsize

/-- `find_longest_match(alo, ahi, blo, bhi)` with no junk: the main dynamic
scan followed by the two non-junk extension loops (the junk extension loops
are no-ops since there is no junk). -/
def find_longest_match (a b : List String) (alo ahi blo bhi : Nat) : Nat × Nat × Nat :=
  let st := flmOuter a b blo bhi (List.range' alo (ahi - alo)) (fun _ => 0) (alo, blo, 0)
  let l := flmExtendLeft a b alo blo st.2.1 st.2.2.1 st.2.2.2
  let ks := flmExtendRight a b bhi l.1 l.2.1 (ahi - (l.1 + l.2.2)) l.2.2
  (l.1, l.2.1, ks)

/-- The recursive region splitting of `get_matching_blocks`: find the longest
match of the region, then recurse on the region to its left and to its right.
Python uses an explicit queue and sorts the collected blocks at the end; since
the left sub-region's blocks all precede the match, which precedes the right
sub-region's blocks, the in-order recursion produces exactly that sorted list.
The fuel argument only forces termination; `la + lb` is always sufficient
because each recursive call strictly shrinks the region. -/
def matchingBlocksAux (a b : List String) :
    Nat → Nat → Nat → Nat → Nat → List (Nat × Nat × Nat)
  | 0, _, _, _, _ => []
  | fuel + 1, alo, ahi, blo, bhi =>
    let m := find_longest_match a b alo ahi blo bhi
    if m.2.2 = 0 then []
    else
      matchingBlocksAux a b fuel alo m.1 blo m.2.1
        ++ m :: matchingBlocksAux a b fuel (m.1 + m.2.2) ahi (m.2.1 + m.2.2) bhi

/-- The adjacent-block merge of `get_matching_blocks`: a block starting exactly
where the accumulated block ends is absorbed into it; otherwise the
accumulated block is emitted (if non-trivial) and the new block becomes the
accumulator.  The initial accumulator is `(0, 0, 0)`. -/
def mergeBlocks : Nat × Nat × Nat → List (Nat × Nat × Nat) → List (Nat × Nat × Nat)
  | acc, [] => if acc.2.2 ≠ 0 then [acc] else []
  | acc, blk :: rest =>
    if acc.1 + acc.2.2 = blk.1 ∧ acc.2.1 + acc.2.2 = blk.2.1 then
      mergeBlocks (acc.1, acc.2.1, acc.2.2 + blk.2.2) rest
    else
      (if acc.2.2 ≠ 0 then [acc] else []) ++ mergeBlocks blk rest

/-- `get_matching_blocks`: the recursively collected blocks, adjacent ones
merged, with the `(la, lb, 0)` sentinel appended. -/
def get_matching_blocks (a b : List String) : List (Nat × Nat × Nat) :=
  mergeBlocks (0, 0, 0)
      (matchingBlocksAux a b (a.length + b.length) 0 a.length 0 b.length)
    ++ [(a.length, b.length, 0)]

/-- An opcode tag of `SequenceMatcher.get_opcodes`. -/
inductive Tag where
  | equal
  | replace
  | delete
  | insert
  deriving DecidableEq, Repr

/-- An opcode `(tag, i1, i2, j1, j2)`. -/
structure Opcode where
  tag : Tag
  i1 : Nat
  i2 : Nat
  j1 : Nat
  j2 : Nat
  deriving DecidableEq, Repr

/-- The opcode walk of `get_opcodes`: between the current position `(i, j)`
and the next block a `replace` / `delete` / `insert` opcode is emitted when
there is a gap on both sides / only the `a` side / only the `b` side, and the
block itself (when of non-zero size) becomes an `equal` opcode. -/
def opcodesFromBlocks : Nat → Nat → List (Nat × Nat × Nat) → List Opcode
  | _, _, [] => []
  | i, j, (ai, bj, size) :: rest =>
    (if i < ai ∧ j < bj then [⟨Tag.replace, i, ai, j, bj⟩]
     else if i < ai then [⟨Tag.delete, i, ai, j, bj⟩]
     else if j < bj then [⟨Tag.insert, i, ai, j, bj⟩]
     else [])
      ++ (if size ≠ 0 then [⟨Tag.equal, ai, ai + size, bj, bj + size⟩] else [])
      ++ opcodesFromBlocks (ai + size) (bj + size) rest

/-- `SequenceMatcher(None, a, b, autojunk=False).get_opcodes()`. -/
def get_opcodes (a b : List String) : List Opcode :=
  opcodesFromBlocks 0 0 (get_matching_blocks a b)

/-! ## `align_transcript_to_manuscript` -/

/-- The aligned segments one opcode contributes, starting at running index
`sidx`.  `equal` zips the two ranges (so it emits `min` of the two spans);
`replace` walks `k < max(tlen, mlen)` emitting a mismatch while both sides
have a word, then extra words (audio side longer) or missing words
(manuscript side longer, timed by `_estimate_missing_time(tws, i1, i2)`);
`insert` emits missing words timed by `_estimate_missing_time(tws, i1, i1)`;
`delete` emits extra words. -/
def segments_of_opcode (tws : List TranscriptWord) (mwords : List String)
    (op : Opcode) (sidx : Nat) : List AlignedSegment :=
  match op.tag with
  | Tag.equal =>
    (List.range (min (op.i2 - op.i1) (op.j2 - op.j1))).map fun t =>
      let tw := tws.getD (op.i1 + t) default
      { text := tw.word, expected_text := mwords.getD (op.j1 + t) "",
        start_time := tw.start, end_time := tw.stop, confidence := tw.confidence,
        segment_type := "word", segment_index := sidx + t, alignment := "match" }
  | Tag.replace =>
    let tlen := op.i2 - op.i1
    let mlen := op.j2 - op.j1
    (List.range (max tlen mlen)).map fun k =>
      if k < tlen ∧ k < mlen then
        let tw := tws.getD (op.i1 + k) default
        { text := tw.word, expected_text := mwords.getD (op.j1 + k) "",
          start_time := tw.start, end_time := tw.stop, confidence := tw.confidence,
          segment_type := "word", segment_index := sidx + k, alignment := "mismatch" }
      else if k < tlen then
        let tw := tws.getD (op.i1 + k) default
        { text := tw.word, expected_text := "",
          start_time := tw.start, end_time := tw.stop, confidence := tw.confidence,
          segment_type := "word", segment_index := sidx + k, alignment := "extra" }
      else
        let est := estimate_missing_time tws op.i1 op.i2
        { text := "", expected_text := mwords.getD (op.j1 + k) "",
          start_time := est, end_time := est, confidence := 0,
          segment_type := "word", segment_index := sidx + k, alignment := "missing" }
  | Tag.insert =>
    let est := estimate_missing_time tws op.i1 op.i1
    (List.range (op.j2 - op.j1)).map fun t =>
      { text := "", expected_text := mwords.getD (op.j1 + t) "",
        start_time := est, end_time := est, confidence := 0,
        segment_type := "word", segment_index := sidx + t, alignment := "missing" }
  | Tag.delete =>
    (List.range (op.i2 - op.i1)).map fun t =>
      let tw := tws.getD (op.i1 + t) default
      { text := tw.word, expected_text := "",
        start_time := tw.start, end_time := tw.stop, confidence := tw.confidence,
        segment_type := "word", segment_index := sidx + t, alignment := "extra" }

/-- The number of segments an opcode contributes. -/
def numSegments (op : Opcode) : Nat :=
  match op.tag with
  | Tag.equal => min (op.i2 - op.i1) (op.j2 - op.j1)
  | Tag.replace => max (op.i2 - op.i1) (op.j2 - op.j1)
  | Tag.insert => op.j2 - op.j1
  | Tag.delete => op.i2 - op.i1

/-- The fold over the opcode list, threading the running `seg_idx`. -/
def align_from_opcodes (tws : List TranscriptWord) (mwords : List String) :
    List Opcode → Nat → List AlignedSegment
  | [], _ => []
  | op :: ops, sidx =>
    segments_of_opcode tws mwords op sidx
      ++ align_from_opcodes tws mwords ops (sidx + numSegments op)

/-- `align_transcript_to_manuscript(transcript_words, manuscript_text)`. -/
def align_transcript_to_manuscript (tws : List TranscriptWord)
    (manuscript_text : String) : List AlignedSegment :=
  let mwords := normalize_text_to_words manuscript_text
  let ttexts := tws.map fun w => normalize_word w.word
  align_from_opcodes tws mwords (get_opcodes ttexts mwords) 0

/-! ## `detect_retakes` -/

/-- One take (occurrence) of a repeated phrase. -/
structure Take where
  start_idx : Nat
  end_idx : Nat
  start_time : ℚ
  end_time : ℚ
  confidence : ℚ
  text : String
  deriving DecidableEq, Inhabited, Repr

/-- A group of takes of the same manuscript passage. -/
structure TakeGroup where
  manuscript_start : Nat
  manuscript_end : Nat
  expected_text : String
  takes : List Take
  deriving DecidableEq, Inhabited, Repr

/-- `_find_phrase_occurrences(words, phrase)`: all starting indices `i` with
`words[i : i + len(phrase)] == phrase`, in ascending order.  Python's
`range(len(words) - phrase_len + 1)` is empty when `phrase_len > len(words)`,
which `Nat` subtraction in `words.length + 1 - phrase.length` reproduces. -/
def find_phrase_occurrences (words phrase : List String) : List Nat :=
  (List.range (words.length + 1 - phrase.length)).filter fun i =>
    (words.drop i).take phrase.length == phrase

/-- The take built for one occurrence starting at `occ_start`. -/
def mkTake (tws : List TranscriptWord) (phrase_len occ_start : Nat) : Take :=
  let occ_end := occ_start + phrase_len - 1
  { start_idx := occ_start, end_idx := occ_end,
    start_time := (tws.getD occ_start default).start,
    end_time := (tws.getD occ_end default).stop,
    confidence :=
      (((List.range' occ_start (occ_end + 1 - occ_start)).map fun i =>
        (tws.getD i default).confidence).sum) / (phrase_len : ℚ),
    text := String.intercalate " "
      ((List.range' occ_start (occ_end + 1 - occ_start)).map fun i =>
        (tws.getD i default).word) }

/-- The candidate retake groups built by the double loop of `detect_retakes`,
before deduplication: phrase lengths run over
`range(3, min(20, len(manuscript_words) + 1))` (so at most 19), start
positions over `range(len(manuscript_words) - phrase_len + 1)`, and a window
with at least two occurrences in the normalized transcript becomes a
candidate group. -/
def detect_retakes_candidates (tws : List TranscriptWord)
    (manuscript_text : String) : List TakeGroup :=
  let mwords := normalize_text_to_words manuscript_text
  let ttexts := tws.map fun w => normalize_word w.word
  (List.range' 3 (min 20 (mwords.length + 1) - 3)).flatMap fun phrase_len =>
    (List.range (mwords.length + 1 - phrase_len)).filterMap fun m_start =>
      let phrase := (mwords.drop m_start).take phrase_len
      let occurrences := find_phrase_occurrences ttexts phrase
      if 1 < occurrences.length then
        some { manuscript_start := m_start, manuscript_end := m_start + phrase_len,
               expected_text := String.intercalate " " phrase,
               takes := occurrences.map fun occ_start => mkTake tws phrase_len occ_start }
      else none

/-- The manuscript-range length of a group (the sort key of the dedup pass). -/
def groupLen (g : TakeGroup) : Nat := g.manuscript_end - g.manuscript_start

/-- The greedy keep loop of `_deduplicate_retake_groups`: scanning the
length-descending list, a group whose manuscript range meets the covered set
is dropped, otherwise it is kept and its range is added to the covered set. -/
def dedupKeep : List TakeGroup → (Nat → Bool) → List TakeGroup
  | [], _ => []
  | g :: rest, covered =>
    if (List.range' g.manuscript_start (g.manuscript_end - g.manuscript_start)).any covered then
      dedupKeep rest covered
    else
      g :: dedupKeep rest fun x =>
        covered x || (decide (g.manuscript_start ≤ x) && decide (x < g.manuscript_end))

/-- `_deduplicate_retake_groups`: stable sort by phrase length descending,
greedy keep of groups whose ranges are still uncovered, then stable re-sort
of the kept groups by manuscript start. -/
def deduplicate_retake_groups (groups : List TakeGroup) : List TakeGroup :=
  if groups = [] then []
  else
    let sortedDesc := List.insertionSort (fun g h => groupLen h ≤ groupLen g) groups
    List.insertionSort (fun g h => g.manuscript_start ≤ h.manuscript_start)
      (dedupKeep sortedDesc fun _ => false)

/-- `detect_retakes(transcript_words, manuscript_text)`. -/
def detect_retakes (tws : List TranscriptWord) (manuscript_text : String) :
    List TakeGroup :=
  deduplicate_retake_groups (detect_retakes_candidates tws manuscript_text)

/-! ## `detect_conflicts` (conflict.py) -/

/-- A conflict record ready for database insertion. -/
structure ConflictRecord where
  segment_index : Nat
  conflict_type : String
  status : String
  detected_text : String
  expected_text : String
  deriving DecidableEq, Inhabited, Repr

/-- `_ALIGNMENT_TO_CONFLICT`: the conflict type an alignment value maps to. -/
def alignment_to_conflict (alignment : String) : Option String :=
  if alignment = "mismatch" then some "misread"
  else if alignment = "missing" then some "missing_word"
  else if alignment = "extra" then some "extra_word"
  else none

/-- The per-segment raw entry of `detect_conflicts`: the mapped conflict type,
or `low_confidence` for a `match` segment with confidence below 0.6; `none`
(Python `None`) for a non-conflict segment, which breaks any active run. -/
def rawConflictEntry (seg : AlignedSegment) : Option ConflictRecord :=
  let ct := match alignment_to_conflict seg.alignment with
    | some t => some t
    | none =>
      if seg.alignment = "match" ∧ seg.confidence < 3/5 then some "low_confidence"
      else none
  ct.map fun t =>
    { segment_index := seg.segment_index, conflict_type := t, status := "pending",
      detected_text := seg.text, expected_text := seg.expected_text }

/-- Appending one further entry's text to the text accumulated so far in a
group: non-empty text is joined with a space (or taken as-is when the
accumulator is still empty); empty text is skipped. -/
def joinText (acc t : String) : String :=
  if t ≠ "" then (if acc ≠ "" then acc ++ " " ++ t else t) else acc

/-- The grouping loop of `_group_consecutive`, with the in-progress group as
explicit state: `none` entries flush the current group, entries of the same
conflict type extend it, and a type change flushes and starts a new group. -/
def groupConsecutiveAux : List (Option ConflictRecord) → Option ConflictRecord →
    List ConflictRecord
  | [], cur => cur.toList
  | none :: rest, cur => cur.toList ++ groupConsecutiveAux rest none
  | some e :: rest, cur =>
    match cur with
    | some c =>
      if c.conflict_type = e.conflict_type then
        groupConsecutiveAux rest (some { c with
          detected_text := joinText c.detected_text e.detected_text,
          expected_text := joinText c.expected_text e.expected_text })
      else c :: groupConsecutiveAux rest (some { e with status := "pending" })
    | none => groupConsecutiveAux rest (some { e with status := "pending" })

/-- `_group_consecutive(raw)`. -/
def group_consecutive (raw : List (Option ConflictRecord)) : List ConflictRecord :=
  groupConsecutiveAux raw none

/-- The pause label `f"[{gap:.1f}s pause]"`.  Python renders the float gap
with one decimal; that float formatting is modelled by rendering the exact
rational here (no claim depends on this string). -/
def pauseLabel (gap : ℚ) : String := "[" ++ toString gap ++ "s pause]"

/-- `_detect_pauses(segments, conflicts, threshold=2.0)`: for each `i ≥ 1`, a
gap `segments[i].start_time - segments[i-1].end_time` above the threshold
yields a pause record anchored at `segments[i].segment_index`. -/
def detect_pauses (segments : List AlignedSegment) : List ConflictRecord :=
  (List.range' 1 (segments.length - 1)).filterMap fun i =>
    let gap := (segments.getD i default).start_time
      - (segments.getD (i - 1) default).end_time
    if 2 < gap then
      some { segment_index := (segments.getD i default).segment_index,
             conflict_type := "pause", status := "pending",
             detected_text := pauseLabel gap, expected_text := "" }
    else none

/-- `detect_conflicts(aligned_segments)`: the run-grouped word-level records
followed by the pause records. -/
def detect_conflicts (aligned_segments : List AlignedSegment) : List ConflictRecord :=
  group_consecutive (aligned_segments.map rawConflictEntry)
    ++ detect_pauses aligned_segments

/-! ## RPP export (rpp.py)

`create_simple_item` renders an item as text; the claims are about the item
fields, so items are modelled structurally and the `%.6f` text rendering is
not re-modelled. -/

/-- The fields `create_simple_item` writes into an `<ITEM` block. -/
structure RppItem where
  wav_path : String
  position : ℚ
  length : ℚ
  soffs : ℚ
  name : String
  mute : Nat
  deriving DecidableEq, Repr

/-- An entry of the `audio_files` argument of `export_rpp`. -/
structure AudioFileEntry where
  audio_file_id : Option Nat
  path : String
  filename : String
  duration : ℚ
  deriving DecidableEq, Repr

/-- A REAPER marker line as produced by `create_marker`. -/
structure RppMarker where
  index : Nat
  position : ℚ
  name : String
  color : Nat
  deriving DecidableEq, Repr

/-- The `audio_path_map` built at the top of `export_rpp`: entries with an id
are inserted in order, later entries overwriting earlier ones. -/
def audioPathMap (audio_files : List AudioFileEntry) : Nat → Option String :=
  audio_files.foldl
    (fun m af => match af.audio_file_id with
      | some k => fun id => if id = k then some af.path else m id
      | none => m)
    (fun _ => none)

/-- The audio path chosen for a segment in `build_conformed_items`:
`audio_path_map.get(seg_audio_id, default) if seg_audio_id else default` —
note that a Python id of `0` (or a missing id) is falsy and selects the
default path without consulting the map. -/
def segAudioPath (pathMap : Nat → Option String) (default_audio : String)
    (seg : AlignedSegment) : String :=
  match seg.audio_file_id with
  | some k => if k = 0 then default_audio else (pathMap k).getD default_audio
  | none => default_audio

/-- Whether `build_conformed_items` keeps a segment: not `missing`, and of
positive length. -/
def keptSegment (seg : AlignedSegment) : Bool :=
  seg.alignment ≠ "missing" && 0 < seg.end_time - seg.start_time

/-- The `conflict_map` of `build_conformed_items`: keyed by segment index,
later conflicts overwriting earlier ones. -/
def conflictMap (conflicts : List ConflictRecord) : Nat → Option ConflictRecord :=
  conflicts.foldl
    (fun m c => fun id => if id = c.segment_index then some c else m id)
    (fun _ => none)

/-- The loop body of `build_conformed_items`, threading the running position:
kept segments become items (muted when their conflict is `needs_edit`, named
by `text or expected_text`) and advance the position by their length. -/
def buildConformedItemsAux (pathMap : Nat → Option String) (default_audio : String)
    (cmap : Nat → Option ConflictRecord) :
    List AlignedSegment → ℚ → List RppItem
  | [], _ => []
  | seg :: rest, position =>
    if keptSegment seg then
      let length := seg.end_time - seg.start_time
      let mute : Nat := match cmap seg.segment_index with
        | some c => if c.status = "needs_edit" then 1 else 0
        | none => 0
      let name := if seg.text ≠ "" then seg.text else seg.expected_text
      { wav_path := segAudioPath pathMap default_audio seg,
        position := position, length := length, soffs := seg.start_time,
        name := name, mute := mute }
        :: buildConformedItemsAux pathMap default_audio cmap rest (position + length)
    else buildConformedItemsAux pathMap default_audio cmap rest position

/-- `build_conformed_items(audio_path_map, default_audio_path, segments,
conflicts)`, modelled as the list of item records (the source concatenates
their text renderings). -/
def build_conformed_items (pathMap : Nat → Option String) (default_audio : String)
    (segments : List AlignedSegment) (conflicts : List ConflictRecord) : List RppItem :=
  buildConformedItemsAux pathMap default_audio (conflictMap conflicts) segments 0

/-- The `conformed_pos_map` pass of `export_rpp`, threading the running
position: each kept segment records the current position under its segment
index (later segments with the same index overwriting earlier ones) and
advances the position by its length. -/
def conformedPosMapAux : List AlignedSegment → (Nat → Option ℚ) → ℚ →
    (Nat → Option ℚ)
  | [], m, _ => m
  | seg :: rest, m, position =>
    if keptSegment seg then
      conformedPosMapAux rest
        (fun id => if id = seg.segment_index then some position else m id)
        (position + (seg.end_time - seg.start_time))
    else conformedPosMapAux rest m position

/-- The conformed position map of `export_rpp`. -/
def conformedPosMap (segments : List AlignedSegment) : Nat → Option ℚ :=
  conformedPosMapAux segments (fun _ => none) 0

/-- The marker label `f"[{ctype}:{status}]"` plus the detected/expected text
suffix. -/
def markerLabel (c : ConflictRecord) : String :=
  let base := "[" ++ c.conflict_type ++ ":" ++ c.status ++ "]"
  if c.detected_text ≠ "" ∧ c.expected_text ≠ "" then
    base ++ " " ++ c.detected_text ++ " -> " ++ c.expected_text
  else if c.detected_text ≠ "" then base ++ " " ++ c.detected_text
  else if c.expected_text ≠ "" then base ++ " (missing: " ++ c.expected_text ++ ")"
  else base

/-- `_marker_color(status)`. -/
def marker_color (status : String) : Nat :=
  if status = "needs_edit" then 33554687
  else if status = "pending" then 33488896
  else if status = "ok" then 16842752
  else 0

/-- The conflict-marker loop of `export_rpp`: conflicts whose segment index
is in the conformed position map get a marker at that conformed position,
numbered consecutively from 1. -/
def exportRppMarkersAux (pmap : Nat → Option ℚ) :
    List ConflictRecord → Nat → List RppMarker
  | [], _ => []
  | c :: rest, marker_idx =>
    match pmap c.segment_index with
    | some pos =>
      { index := marker_idx, position := pos, name := markerLabel c,
        color := marker_color c.status }
        :: exportRppMarkersAux pmap rest (marker_idx + 1)
    | none => exportRppMarkersAux pmap rest marker_idx

/-- The conflict markers `export_rpp` emits for a segment/conflict list. -/
def export_rpp_markers (conflicts : List ConflictRecord)
    (segments : List AlignedSegment) : List RppMarker :=
  exportRppMarkersAux (conformedPosMap segments) conflicts 1

/-! ## Specification-side definitions

These render the spec's wording (runs, space-joined text, overlapping ranges,
kept segments) so that the claims can be stated against them. -/

/-- The kept segments of the conformed track: not `missing`, positive length. -/
def keptSegments (segments : List AlignedSegment) : List AlignedSegment :=
  segments.filter keptSegment

/-- Two take groups' manuscript token ranges `[start, end)` share a token. -/
def rangesOverlap (g h : TakeGroup) : Prop :=
  max g.manuscript_start h.manuscript_start < min g.manuscript_end h.manuscript_end

instance (g h : TakeGroup) : Decidable (rangesOverlap g h) := by
  unfold rangesOverlap; infer_instance

/-- Space-joined concatenation of a list of strings. -/
def spaceJoin : List String → String
  | [] => ""
  | [x] => x
  | x :: y :: rest => x ++ " " ++ spaceJoin (y :: rest)

/-- The conflict record the spec prescribes for one run of same-type raw
entries: anchored at the first entry's segment index, status `pending`, and
the detected/expected texts space-joined over the run's non-empty fields. -/
def runRecord (run : List ConflictRecord) : ConflictRecord :=
  { segment_index := (run.headD default).segment_index,
    conflict_type := (run.headD default).conflict_type,
    status := "pending",
    detected_text := spaceJoin ((run.map fun e => e.detected_text).filter fun t => t ≠ ""),
    expected_text := spaceJoin ((run.map fun e => e.expected_text).filter fun t => t ≠ "") }

/-- Splitting the raw per-segment entry list into maximal runs of consecutive
entries sharing one conflict type: a `none` (non-conflict segment) or a type
change ends the current run. -/
def splitRunsAux : List (Option ConflictRecord) → List ConflictRecord →
    List (List ConflictRecord)
  | [], acc => if acc = [] then [] else [acc]
  | none :: rest, acc => (if acc = [] then [] else [acc]) ++ splitRunsAux rest []
  | some e :: rest, acc =>
    if acc ≠ [] ∧ (acc.headD default).conflict_type = e.conflict_type then
      splitRunsAux rest (acc ++ [e])
    else (if acc = [] then [] else [acc]) ++ splitRunsAux rest [e]

/-- The maximal same-type runs of a raw entry list. -/
def splitRuns (raw : List (Option ConflictRecord)) : List (List ConflictRecord) :=
  splitRunsAux raw []

/-- Concrete transcript words built from a list of surface strings, with
simulated consecutive timings and full confidence (used by the concrete
instances below). -/
def wordsOf (ws : List String) : List TranscriptWord :=
  (List.range ws.length).map fun i =>
    { word := ws.getD i "", start := (i : ℚ), stop := ((i + 1 : Nat) : ℚ), confidence := 1 }

/-! ## Soundness invariants for the `SequenceMatcher` embedding -/

/-- Invariant of the `j2len` map at the start of row `i` (the map was closed
at row `i - 1`): every non-zero entry `m j` records a genuine common run of
that length ending at `(i - 1, j)`, lying inside the window. -/
def RowInv (a b : List String) (alo blo bhi i : Nat) (m : Nat → Nat) : Prop :=
  ∀ j, m j ≠ 0 →
    blo + m j ≤ j + 1 ∧ alo + m j ≤ i ∧ j < bhi ∧
    ∀ t < m j, a.getD (i - m j + t) "" = b.getD (j + 1 - m j + t) ""

/-- Invariant of the running best triple: either still the initial
`(alo, blo, 0)`, or a genuine in-window common run. -/
def BestInv (a b : List String) (alo ahi blo bhi : Nat) (best : Nat × Nat × Nat) : Prop :=
  (best.2.2 = 0 → best = (alo, blo, 0)) ∧
  (best.2.2 ≠ 0 →
    alo ≤ best.1 ∧ blo ≤ best.2.1 ∧ best.1 + best.2.2 ≤ ahi ∧ best.2.1 + best.2.2 ≤ bhi ∧
    ∀ t < best.2.2, a.getD (best.1 + t) "" = b.getD (best.2.1 + t) "")

/-- Soundness of a block list for a window: the blocks are a chain of
non-empty genuine matches, in order, inside the window. -/
def BlocksSound (a b : List String) : Nat → Nat → Nat → Nat → List (Nat × Nat × Nat) → Prop
  | _, _, _, _, [] => True
  | alo, ahi, blo, bhi, (i, j, k) :: rest =>
    alo ≤ i ∧ blo ≤ j ∧ i + k ≤ ahi ∧ j + k ≤ bhi ∧ k ≠ 0 ∧
    (∀ t < k, a.getD (i + t) "" = b.getD (j + t) "") ∧
    BlocksSound a b (i + k) ahi (j + k) bhi rest

/-- A block list chains from `(i, j)` exactly to `(iE, jE)` (the sentinel
block makes the end exact), each block being a genuine match. -/
def BlocksChainTo (a b : List String) : Nat → Nat → Nat → Nat → List (Nat × Nat × Nat) → Prop
  | i, j, iE, jE, [] => i = iE ∧ j = jE
  | i, j, iE, jE, (ai, bj, k) :: rest =>
    i ≤ ai ∧ j ≤ bj ∧ (∀ t < k, a.getD (ai + t) "" = b.getD (bj + t) "") ∧
    BlocksChainTo a b (ai + k) (bj + k) iE jE rest

/-- Per-tag facts about an opcode: `equal` opcodes have balanced spans of
elementwise-equal content, `replace` non-empty spans on both sides, `delete`
an empty `b` span, `insert` an empty `a` span. -/
def TagOK (a b : List String) (op : Opcode) : Prop :=
  match op.tag with
  | Tag.equal =>
    op.i2 - op.i1 = op.j2 - op.j1 ∧
    ∀ t < op.i2 - op.i1, a.getD (op.i1 + t) "" = b.getD (op.j1 + t) ""
  | Tag.replace => op.i1 < op.i2 ∧ op.j1 < op.j2
  | Tag.delete => op.i1 < op.i2 ∧ op.j1 = op.j2
  | Tag.insert => op.i1 = op.i2 ∧ op.j1 < op.j2

/-- An opcode list tiles `[i, iE) × [j, jE)` contiguously: each opcode starts
where the previous one ended, and the walk ends exactly at `(iE, jE)`. -/
def OpsChain (a b : List String) : Nat → Nat → Nat → Nat → List Opcode → Prop
  | i, j, iE, jE, [] => i = iE ∧ j = jE
  | i, j, iE, jE, op :: rest =>
    op.i1 = i ∧ op.j1 = j ∧ op.i1 ≤ op.i2 ∧ op.j1 ≤ op.j2 ∧ TagOK a b op ∧
    OpsChain a b op.i2 op.j2 iE jE rest

/-- The row of the `j2len` dynamic scan when the matcher compares a sequence
with itself: `selfRow a i j` is the value `j2len[j]` holds after row `i` of
`find_longest_match a a 0 n 0 n` — the length of the diagonal run of equal
elements ending at positions `(i, j)`, and `0` when `a[j] ≠ a[i]` or `j` is
out of range. -/
def selfRow (a : List String) : Nat → Nat → Nat
  | 0, j => if j < a.length ∧ a.getD j "" == a.getD 0 "" then 1 else 0
  | i + 1, j =>
    if j < a.length ∧ a.getD j "" == a.getD (i + 1) "" then
      (if j = 0 then 0 else selfRow a i (j - 1)) + 1
    else 0

/-! # Theorems -/

/-! ## Space-joining and the conflict grouping (C7) -/

theorem spaceJoin_ne_empty (xs : List String) (hxs : ∀ x ∈ xs, x ≠ "")
    (hne : xs ≠ []) : spaceJoin xs ≠ "" := by
  match xs, hne with
  | [x], _ =>
    simpa [spaceJoin] using hxs x (by simp)
  | x :: y :: rest, _ =>
    intro h
    have hlen := congrArg String.length h
    simp only [spaceJoin, String.length_append] at hlen
    have h1 : (" " : String).length = 1 := rfl
    have h0 : ("" : String).length = 0 := rfl
    omega

theorem spaceJoin_append_single (xs : List String) (t : String) :
    spaceJoin (xs ++ [t]) = if xs = [] then t else spaceJoin xs ++ " " ++ t := by
  induction xs with
  | nil => simp [spaceJoin]
  | cons x rest ih =>
    cases rest with
    | nil => simp [spaceJoin]
    | cons y rest' =>
      have h1 : (x :: (y :: rest')) ++ [t] = x :: ((y :: rest') ++ [t]) := rfl
      have h2 : (y :: rest') ++ [t] = y :: (rest' ++ [t]) := rfl
      rw [h1]
      have h3 : spaceJoin (x :: ((y :: rest') ++ [t]))
          = x ++ " " ++ spaceJoin ((y :: rest') ++ [t]) := by
        rw [h2]; rfl
      rw [h3, ih]
      simp [spaceJoin, String.append_assoc]

theorem joinText_empty_right (s : String) : joinText s "" = s := by
  simp [joinText]

theorem joinText_spaceJoin (l : List String) (hl : ∀ x ∈ l, x ≠ "") (t : String)
    (ht : t ≠ "") : joinText (spaceJoin l) t = spaceJoin (l ++ [t]) := by
  rw [spaceJoin_append_single]
  rcases l with _ | ⟨x, xs⟩
  · simp [spaceJoin, joinText, ht]
  · have hne := spaceJoin_ne_empty (x :: xs) hl (by simp)
    simp [joinText, ht, hne]

theorem joinText_spaceJoin_filter (texts : List String) (t : String) :
    joinText (spaceJoin (texts.filter fun x => x ≠ "")) t
      = spaceJoin ((texts ++ [t]).filter fun x => x ≠ "") := by
  have hflt : ∀ x ∈ texts.filter (fun x : String => x ≠ ""), x ≠ "" := by
    intro x hx
    have := List.of_mem_filter hx
    simpa using this
  rw [List.filter_append]
  by_cases ht : t = ""
  · subst ht
    rw [joinText_empty_right]
    simp
  · have h1 : List.filter (fun x : String => decide (x ≠ "")) [t] = [t] := by simp [ht]
    rw [h1, joinText_spaceJoin _ hflt t ht]

theorem runRecord_single (e : ConflictRecord) :
    runRecord [e] = { e with status := "pending" } := by
  have hd : ∀ (s : String), spaceJoin ([s].filter fun t => t ≠ "") = s := by
    intro s
    by_cases h : s = "" <;> simp [h, spaceJoin]
  cases e with
  | mk si ct st dt et =>
    have hD := hd dt
    have hE := hd et
    simp only [ne_eq, decide_not] at hD hE
    simp [runRecord, hD, hE]

theorem groupConsecutiveAux_eq_splitRunsAux (raw : List (Option ConflictRecord)) :
    ∀ acc : List ConflictRecord,
      groupConsecutiveAux raw (match acc with | [] => none | _ :: _ => some (runRecord acc))
        = (splitRunsAux raw acc).map runRecord := by
  induction raw with
  | nil =>
    intro acc
    cases acc with
    | nil => simp [groupConsecutiveAux, splitRunsAux]
    | cons a as => simp [groupConsecutiveAux, splitRunsAux, Option.toList]
  | cons entry rest ih =>
    intro acc
    cases entry with
    | none =>
      have h0 := ih []
      cases acc with
      | nil =>
        simp only [groupConsecutiveAux, splitRunsAux]
        simpa using h0
      | cons a as =>
        simp only [groupConsecutiveAux, splitRunsAux]
        simp [h0, Option.toList]
    | some e =>
      cases acc with
      | nil =>
        simp only [groupConsecutiveAux, splitRunsAux]
        have h1 := ih [e]
        simp only [runRecord_single] at h1 ⊢
        simpa using h1
      | cons a as =>
        have hhead : (runRecord (a :: as)).conflict_type
            = ((a :: as).headD default).conflict_type := rfl
        by_cases htyp : ((a :: as).headD default).conflict_type = e.conflict_type
        · have hcond : (a :: as ≠ [] ∧
              ((a :: as).headD default).conflict_type = e.conflict_type) := ⟨by simp, htyp⟩
          simp only [groupConsecutiveAux, splitRunsAux, if_pos hcond, hhead, if_pos htyp]
          refine Eq.trans ?_ (by simpa using ih ((a :: as) ++ [e]))
          congr 1
          congr 1
          have hD := joinText_spaceJoin_filter ((a :: as).map fun x => x.detected_text)
            e.detected_text
          have hE := joinText_spaceJoin_filter ((a :: as).map fun x => x.expected_text)
            e.expected_text
          simp only [runRecord, List.map_append, List.map_cons, List.map_nil,
            List.headD_cons, List.cons_append] at hD hE ⊢
          rw [hD, hE]
        · have hcond : ¬(a :: as ≠ [] ∧
              ((a :: as).headD default).conflict_type = e.conflict_type) := by
            intro hc; exact htyp hc.2
          simp only [groupConsecutiveAux, splitRunsAux, if_neg hcond, hhead, if_neg htyp]
          have h1 := ih [e]
          simp only [runRecord_single] at h1
          simp [h1]

theorem group_consecutive_eq_runs (raw : List (Option ConflictRecord)) :
    group_consecutive raw = (splitRuns raw).map runRecord :=
  groupConsecutiveAux_eq_splitRunsAux raw []

/-- C7: consecutive segments with the same conflict classification merge into
a single record — `detect_conflicts` equals, for every segment list, the list
of per-run records (anchored at the run's first segment index, status
`pending`, texts space-joined over the run's non-empty fields) followed by
the pause records; and three consecutive `extra` segments at indices 5, 6, 7
with texts "as", "he", "said" yield exactly one `extra_word` record with
detected text "as he said" anchored at index 5. -/
theorem c7_conflict_grouping :
    (∀ segs : List AlignedSegment,
      detect_conflicts segs
        = ((splitRuns (segs.map rawConflictEntry)).map runRecord) ++ detect_pauses segs)
    ∧ detect_conflicts
        [{ text := "as", expected_text := "", start_time := 0, end_time := 1,
           confidence := 1, segment_type := "word", segment_index := 5,
           alignment := "extra" },
         { text := "he", expected_text := "", start_time := 1, end_time := 2,
           confidence := 1, segment_type := "word", segment_index := 6,
           alignment := "extra" },
         { text := "said", expected_text := "", start_time := 2, end_time := 3,
           confidence := 1, segment_type := "word", segment_index := 7,
           alignment := "extra" }]
      = [{ segment_index := 5, conflict_type := "extra_word", status := "pending",
           detected_text := "as he said", expected_text := "" }] := by
  constructor
  · intro segs
    rw [detect_conflicts, group_consecutive_eq_runs]
  · rw [detect_conflicts]
    have hpause : detect_pauses
        [{ text := "as", expected_text := "", start_time := 0, end_time := 1,
           confidence := 1, segment_type := "word", segment_index := 5,
           alignment := "extra" },
         { text := "he", expected_text := "", start_time := 1, end_time := 2,
           confidence := 1, segment_type := "word", segment_index := 6,
           alignment := "extra" },
         { text := "said", expected_text := "", start_time := 2, end_time := 3,
           confidence := 1, segment_type := "word", segment_index := 7,
           alignment := "extra" }] = [] := by
      norm_num [detect_pauses, List.range']
    rw [hpause, List.append_nil]
    decide

/-! ## Conflict output ordering (C10) -/

theorem splitRunsAux_flatten (raw : List (Option ConflictRecord)) :
    ∀ acc, (splitRunsAux raw acc).flatten = acc ++ raw.filterMap id := by
  induction raw with
  | nil =>
    intro acc
    cases acc <;> simp [splitRunsAux]
  | cons entry rest ih =>
    intro acc
    cases entry with
    | none =>
      by_cases hacc : acc = [] <;>
        simp [splitRunsAux, hacc, ih, List.filterMap_cons]
    | some e =>
      by_cases hcond : acc ≠ [] ∧ (acc.headD default).conflict_type = e.conflict_type
      · rw [splitRunsAux, if_pos hcond, ih]
        simp [List.filterMap_cons]
      · rw [splitRunsAux, if_neg hcond]
        by_cases hacc : acc = [] <;> simp [hacc, ih, List.filterMap_cons]

theorem splitRunsAux_ne_nil (raw : List (Option ConflictRecord)) :
    ∀ acc, ∀ r ∈ splitRunsAux raw acc, r ≠ [] := by
  induction raw with
  | nil =>
    intro acc r hr
    by_cases hacc : acc = [] <;> simp [splitRunsAux, hacc] at hr
    subst hr; exact hacc
  | cons entry rest ih =>
    intro acc r hr
    cases entry with
    | none =>
      by_cases hacc : acc = [] <;> simp [splitRunsAux, hacc] at hr
      · exact ih [] r hr
      · rcases hr with hr | hr
        · subst hr; exact hacc
        · exact ih [] r hr
    | some e =>
      by_cases hcond : acc ≠ [] ∧ (acc.headD default).conflict_type = e.conflict_type
      · rw [splitRunsAux, if_pos hcond] at hr
        exact ih _ r hr
      · rw [splitRunsAux, if_neg hcond] at hr
        by_cases hacc : acc = [] <;> simp [hacc] at hr
        · exact ih [e] r hr
        · rcases hr with hr | hr
          · subst hr; exact hacc
          · exact ih [e] r hr

theorem heads_sublist {α : Type} (d : α) :
    ∀ runs : List (List α), (∀ r ∈ runs, r ≠ []) →
      (runs.map fun r => r.headD d).Sublist runs.flatten := by
  intro runs
  induction runs with
  | nil => intro _; simp
  | cons r rest ih =>
    intro hne
    cases r with
    | nil => exact absurd rfl (hne [] (by simp))
    | cons x xs =>
      have h1 := ih fun r hr => hne r (by simp [hr])
      simp only [List.map_cons, List.headD_cons, List.flatten_cons, List.cons_append]
      exact List.Sublist.cons₂ x (h1.trans (List.sublist_append_right xs _))

theorem rawConflictEntry_index (seg : AlignedSegment) (c : ConflictRecord)
    (h : rawConflictEntry seg = some c) : c.segment_index = seg.segment_index := by
  unfold rawConflictEntry at h
  rcases halt : alignment_to_conflict seg.alignment with _ | t
  · rw [halt] at h
    by_cases hlc : seg.alignment = "match" ∧ seg.confidence < 3/5
    · simp only [if_pos hlc, Option.map_some] at h
      cases h; rfl
    · simp [if_neg hlc] at h
  · rw [halt] at h
    simp only [Option.map_some] at h
    cases h; rfl

theorem filterMap_rawConflictEntry_index_sublist (segs : List AlignedSegment) :
    ((segs.filterMap rawConflictEntry).map fun c => c.segment_index).Sublist
      (segs.map fun s => s.segment_index) := by
  induction segs with
  | nil => simp
  | cons s rest ih =>
    rw [List.filterMap_cons]
    rcases hc : rawConflictEntry s with _ | c
    · exact ih.trans (List.sublist_cons_self _ _)
    · simp only [List.map_cons, rawConflictEntry_index s c hc]
      exact ih.cons₂ _

theorem group_consecutive_anchors_sublist (segs : List AlignedSegment) :
    ((group_consecutive (segs.map rawConflictEntry)).map fun c => c.segment_index).Sublist
      (segs.map fun s => s.segment_index) := by
  rw [group_consecutive_eq_runs]
  have h1 : ((splitRuns (segs.map rawConflictEntry)).map runRecord).map
        (fun c => c.segment_index)
      = (splitRuns (segs.map rawConflictEntry)).map
        fun r => (r.headD default).segment_index := by
    rw [List.map_map]; rfl
  rw [h1]
  have h2 : ((splitRuns (segs.map rawConflictEntry)).map fun r => r.headD default).Sublist
      (splitRuns (segs.map rawConflictEntry)).flatten :=
    heads_sublist default _ (splitRunsAux_ne_nil _ [])
  have h3 := h2.map fun c : ConflictRecord => c.segment_index
  rw [List.map_map] at h3
  have h4 : (splitRuns (segs.map rawConflictEntry)).flatten = segs.filterMap rawConflictEntry := by
    rw [splitRuns, splitRunsAux_flatten, List.nil_append, List.filterMap_map]
    rfl
  rw [h4] at h3
  exact h3.trans (filterMap_rawConflictEntry_index_sublist segs)

theorem detect_pauses_anchors_increasing (segs : List AlignedSegment)
    (hmono : List.Pairwise (fun s t => s.segment_index < t.segment_index) segs) :
    List.Pairwise (· < ·) ((detect_pauses segs).map fun c => c.segment_index) := by
  have hidx : ∀ i j, i < j → i < segs.length → j < segs.length →
      (segs.getD i default).segment_index < (segs.getD j default).segment_index := by
    intro i j hij hi hj
    rw [List.getD_eq_getElem segs default hi, List.getD_eq_getElem segs default hj]
    exact List.pairwise_iff_getElem.mp hmono i j hi hj hij
  have hP : List.Pairwise (fun i j => i < j ∧ j < segs.length)
      (List.range' 1 (segs.length - 1)) := by
    rw [List.pairwise_iff_getElem]
    intro i j hi hj hij
    simp only [List.getElem_range'] at *
    simp only [List.length_range'] at hi hj
    omega
  unfold detect_pauses
  refine List.Pairwise.map _ (fun c c' h => h) ?_
  refine List.Pairwise.filterMap _ ?_ hP
  rintro i j ⟨hij, hjlen⟩ c hc c' hc'
  simp only [Option.mem_def] at hc hc'
  split_ifs at hc hc'
  cases hc
  cases hc'
  exact hidx i j hij (by omega) hjlen

/-- C10 (counterexample): for an input whose segment_index values are not
increasing in list order, the word-level conflict records are not in strictly
increasing anchor order — the claim fails as stated over all inputs. -/
theorem c10_counterexample :
    ¬ (detect_conflicts
        [{ text := "x", expected_text := "", start_time := 0, end_time := 0,
           confidence := 1, segment_type := "word", segment_index := 9,
           alignment := "extra" },
         { text := "", expected_text := "y", start_time := 0, end_time := 0,
           confidence := 0, segment_type := "word", segment_index := 3,
           alignment := "missing" }]
        = group_consecutive
            (([{ text := "x", expected_text := "", start_time := 0, end_time := 0,
                 confidence := 1, segment_type := "word", segment_index := 9,
                 alignment := "extra" },
               { text := "", expected_text := "y", start_time := 0, end_time := 0,
                 confidence := 0, segment_type := "word", segment_index := 3,
                 alignment := "missing" }] : List AlignedSegment).map rawConflictEntry)
          ++ detect_pauses
            [{ text := "x", expected_text := "", start_time := 0, end_time := 0,
               confidence := 1, segment_type := "word", segment_index := 9,
               alignment := "extra" },
             { text := "", expected_text := "y", start_time := 0, end_time := 0,
               confidence := 0, segment_type := "word", segment_index := 3,
               alignment := "missing" }]
       ∧ List.Pairwise (· < ·)
          ((group_consecutive
            (([{ text := "x", expected_text := "", start_time := 0, end_time := 0,
                 confidence := 1, segment_type := "word", segment_index := 9,
                 alignment := "extra" },
               { text := "", expected_text := "y", start_time := 0, end_time := 0,
                 confidence := 0, segment_type := "word", segment_index := 3,
                 alignment := "missing" }] : List AlignedSegment).map rawConflictEntry)).map
            fun c => c.segment_index)
       ∧ List.Pairwise (· < ·)
          ((detect_pauses
            [{ text := "x", expected_text := "", start_time := 0, end_time := 0,
               confidence := 1, segment_type := "word", segment_index := 9,
               alignment := "extra" },
             { text := "", expected_text := "y", start_time := 0, end_time := 0,
               confidence := 0, segment_type := "word", segment_index := 3,
               alignment := "missing" }]).map fun c => c.segment_index)) := by
  intro h
  exact absurd h.2.1 (by decide)

/-- C10: for every input whose segment_index values strictly increase in list
order, detect_conflicts places all run-grouped word-level records first, in
strictly increasing anchor segment_index order, followed by all pause
records, also in strictly increasing anchor order. -/
theorem c10_conflict_ordering (segs : List AlignedSegment)
    (hmono : List.Pairwise (fun s t => s.segment_index < t.segment_index) segs) :
    detect_conflicts segs
      = group_consecutive (segs.map rawConflictEntry) ++ detect_pauses segs
    ∧ List.Pairwise (· < ·)
        ((group_consecutive (segs.map rawConflictEntry)).map fun c => c.segment_index)
    ∧ List.Pairwise (· < ·) ((detect_pauses segs).map fun c => c.segment_index) := by
  refine ⟨rfl, ?_, detect_pauses_anchors_increasing segs hmono⟩
  have hsub := group_consecutive_anchors_sublist segs
  have hmap : List.Pairwise (· < ·) (segs.map fun s => s.segment_index) := by
    exact List.Pairwise.map _ (fun a b h => h) hmono
  exact List.Pairwise.sublist hsub hmap

/-- C10 (witness): the ordering theorem applied to a concrete
strictly-increasing input. -/
theorem c10_conflict_ordering_witness :
    detect_conflicts
      [{ text := "x", expected_text := "", start_time := 0, end_time := 0,
         confidence := 1, segment_type := "word", segment_index := 3,
         alignment := "extra" },
       { text := "", expected_text := "y", start_time := 0, end_time := 0,
         confidence := 0, segment_type := "word", segment_index := 9,
         alignment := "missing" }]
      = group_consecutive
          (([{ text := "x", expected_text := "", start_time := 0, end_time := 0,
               confidence := 1, segment_type := "word", segment_index := 3,
               alignment := "extra" },
             { text := "", expected_text := "y", start_time := 0, end_time := 0,
               confidence := 0, segment_type := "word", segment_index := 9,
               alignment := "missing" }] : List AlignedSegment).map rawConflictEntry)
        ++ detect_pauses
          [{ text := "x", expected_text := "", start_time := 0, end_time := 0,
             confidence := 1, segment_type := "word", segment_index := 3,
             alignment := "extra" },
           { text := "", expected_text := "y", start_time := 0, end_time := 0,
             confidence := 0, segment_type := "word", segment_index := 9,
             alignment := "missing" }]
    ∧ List.Pairwise (· < ·)
        ((group_consecutive
          (([{ text := "x", expected_text := "", start_time := 0, end_time := 0,
               confidence := 1, segment_type := "word", segment_index := 3,
               alignment := "extra" },
             { text := "", expected_text := "y", start_time := 0, end_time := 0,
               confidence := 0, segment_type := "word", segment_index := 9,
               alignment := "missing" }] : List AlignedSegment).map rawConflictEntry)).map
          fun c => c.segment_index)
    ∧ List.Pairwise (· < ·)
        ((detect_pauses
          [{ text := "x", expected_text := "", start_time := 0, end_time := 0,
             confidence := 1, segment_type := "word", segment_index := 3,
             alignment := "extra" },
           { text := "", expected_text := "y", start_time := 0, end_time := 0,
             confidence := 0, segment_type := "word", segment_index := 9,
             alignment := "missing" }]).map fun c => c.segment_index) :=
  c10_conflict_ordering _ (by decide)

/-! ## Retake deduplication (C5) -/

theorem rangesOverlap_symm {g h : TakeGroup} (hov : rangesOverlap g h) :
    rangesOverlap h g := by
  unfold rangesOverlap at *
  omega

theorem dedupKeep_uncovered (l : List TakeGroup) :
    ∀ covered : Nat → Bool,
      (∀ h ∈ dedupKeep l covered, ∀ x, h.manuscript_start ≤ x → x < h.manuscript_end →
        covered x = false)
      ∧ List.Pairwise (fun g h => ¬ rangesOverlap g h) (dedupKeep l covered) := by
  induction l with
  | nil => intro covered; simp [dedupKeep]
  | cons g rest ih =>
    intro covered
    by_cases hany :
        (List.range' g.manuscript_start (g.manuscript_end - g.manuscript_start)).any covered
    · rw [dedupKeep, if_pos hany]
      exact ih covered
    · rw [dedupKeep, if_neg hany]
      have hg : ∀ x, g.manuscript_start ≤ x → x < g.manuscript_end → covered x = false := by
        intro x hx1 hx2
        by_contra hcx
        have hcx' : covered x = true := by
          cases hcov : covered x
          · exact absurd hcov hcx
          · rfl
        apply hany
        rw [List.any_eq_true]
        refine ⟨x, ?_, hcx'⟩
        rw [List.mem_range'_1]
        omega
      have ihc := ih fun x =>
        covered x || (decide (g.manuscript_start ≤ x) && decide (x < g.manuscript_end))
      constructor
      · intro h hh x hx1 hx2
        rcases List.mem_cons.mp hh with hh | hh
        · subst hh; exact hg x hx1 hx2
        · have := ihc.1 h hh x hx1 hx2
          simp only [Bool.or_eq_false_iff] at this
          exact this.1
      · constructor
        · intro h hh hov
          have hx := ihc.1 h hh
          unfold rangesOverlap at hov
          set x := max g.manuscript_start h.manuscript_start with hxdef
          have h1 := hx x (by omega) (by omega)
          simp only [Bool.or_eq_false_iff, Bool.and_eq_false_iff] at h1
          rcases h1.2 with h2 | h2 <;> simp at h2 <;> omega
        · exact ihc.2

theorem dedupKeep_dropped (l : List TakeGroup) :
    ∀ (covered : Nat → Bool) (keptAcc : List TakeGroup),
      (∀ x, covered x = true →
        ∃ h ∈ keptAcc, h.manuscript_start ≤ x ∧ x < h.manuscript_end) →
      (∀ h ∈ keptAcc, ∀ g ∈ l, groupLen g ≤ groupLen h) →
      List.Pairwise (fun g h => groupLen h ≤ groupLen g) l →
      ∀ g ∈ l, g ∉ dedupKeep l covered →
        ∃ h, (h ∈ keptAcc ∨ h ∈ dedupKeep l covered) ∧ rangesOverlap g h ∧
          groupLen g ≤ groupLen h := by
  induction l with
  | nil => intro covered keptAcc _ _ _ g hg; simp at hg
  | cons g0 rest ih =>
    intro covered keptAcc hcov hlen hpair g hg hnk
    by_cases hany :
        (List.range' g0.manuscript_start (g0.manuscript_end - g0.manuscript_start)).any covered
    · rw [dedupKeep, if_pos hany] at hnk ⊢
      rcases List.mem_cons.mp hg with hg | hg
      · subst hg
        rw [List.any_eq_true] at hany
        obtain ⟨x, hxmem, hxcov⟩ := hany
        rw [List.mem_range'_1] at hxmem
        obtain ⟨h, hhmem, hh1, hh2⟩ := hcov x hxcov
        refine ⟨h, Or.inl hhmem, ?_, hlen h hhmem g (by simp)⟩
        unfold rangesOverlap
        omega
      · exact ih covered keptAcc hcov
          (fun h hh g' hg' => hlen h hh g' (by simp [hg']))
          (List.Pairwise.sublist (List.sublist_cons_self g0 rest) hpair)
          g hg hnk
    · rw [dedupKeep, if_neg hany] at hnk ⊢
      rcases List.mem_cons.mp hg with hg | hg
      · exact absurd (by rw [hg]; exact List.mem_cons_self g0 _) hnk
      · have hnk' : g ∉ dedupKeep rest fun x =>
            covered x || (decide (g0.manuscript_start ≤ x) && decide (x < g0.manuscript_end)) := by
          intro hk
          exact hnk (List.mem_cons_of_mem g0 hk)
        have hres := ih
          (fun x => covered x ||
            (decide (g0.manuscript_start ≤ x) && decide (x < g0.manuscript_end)))
          (g0 :: keptAcc)
          (by
            intro x hx
            simp only [Bool.or_eq_true, Bool.and_eq_true, decide_eq_true_eq] at hx
            rcases hx with hx | hx
            · obtain ⟨h, hh, h1, h2⟩ := hcov x hx
              exact ⟨h, List.mem_cons_of_mem g0 hh, h1, h2⟩
            · exact ⟨g0, List.mem_cons_self g0 _, hx.1, hx.2⟩)
          (by
            intro h hh g' hg'
            rcases List.mem_cons.mp hh with hh | hh
            · subst hh
              exact (List.pairwise_cons.mp hpair).1 g' hg'
            · exact hlen h hh g' (by simp [hg']))
          (List.pairwise_cons.mp hpair).2
          g hg hnk'
        obtain ⟨h, hmem, hov, hl⟩ := hres
        refine ⟨h, ?_, hov, hl⟩
        rcases hmem with hmem | hmem
        · rcases List.mem_cons.mp hmem with hmem | hmem
          · exact Or.inr (by rw [hmem]; exact List.mem_cons_self _ _)
          · exact Or.inl hmem
        · exact Or.inr (List.mem_cons_of_mem g0 hmem)

/-- C5: the deduplicated retake groups have pairwise disjoint manuscript
ranges and are sorted by manuscript start; and (amended greedy property)
every candidate that is dropped overlaps some kept group whose phrase is at
least as long. -/
theorem c5_retake_dedup_invariants (tws : List TranscriptWord) (mtext : String) :
    List.Pairwise (fun g h => ¬ rangesOverlap g h) (detect_retakes tws mtext)
    ∧ List.Pairwise (fun g h => g.manuscript_start ≤ h.manuscript_start)
        (detect_retakes tws mtext)
    ∧ ∀ g ∈ detect_retakes_candidates tws mtext, g ∉ detect_retakes tws mtext →
        ∃ h ∈ detect_retakes tws mtext, rangesOverlap g h ∧ groupLen g ≤ groupLen h := by
  haveI instTot1 : IsTotal TakeGroup (fun g h => groupLen h ≤ groupLen g) :=
    ⟨fun a b => (le_total (groupLen b) (groupLen a))⟩
  haveI instTrans1 : IsTrans TakeGroup (fun g h => groupLen h ≤ groupLen g) :=
    ⟨fun _ _ _ h1 h2 => le_trans h2 h1⟩
  haveI instTot2 : IsTotal TakeGroup (fun g h => g.manuscript_start ≤ h.manuscript_start) :=
    ⟨fun a b => le_total a.manuscript_start b.manuscript_start⟩
  haveI instTrans2 : IsTrans TakeGroup (fun g h => g.manuscript_start ≤ h.manuscript_start) :=
    ⟨fun _ _ _ h1 h2 => le_trans h1 h2⟩
  rw [detect_retakes, deduplicate_retake_groups]
  by_cases hnil : detect_retakes_candidates tws mtext = []
  · rw [if_pos hnil]
    refine ⟨List.Pairwise.nil, List.Pairwise.nil, ?_⟩
    intro g hg
    rw [hnil] at hg
    simp at hg
  · rw [if_neg hnil]
    set cands := detect_retakes_candidates tws mtext with hcands
    set sortedDesc := List.insertionSort (fun g h => groupLen h ≤ groupLen g) cands
      with hsd
    set kept := dedupKeep sortedDesc (fun _ => false) with hkept
    set res := List.insertionSort (fun g h => g.manuscript_start ≤ h.manuscript_start) kept
      with hres
    have hperm1 : sortedDesc.Perm cands := List.perm_insertionSort _ cands
    have hperm2 : res.Perm kept := List.perm_insertionSort _ kept
    have hdisj : List.Pairwise (fun g h => ¬ rangesOverlap g h) kept :=
      (dedupKeep_uncovered sortedDesc (fun _ => false)).2
    refine ⟨?_, ?_, ?_⟩
    · rw [hperm2.pairwise_iff fun hov h => hov (rangesOverlap_symm h)]
      exact hdisj
    · exact List.sorted_insertionSort _ kept
    · intro g hgc hgnr
      have hgsd : g ∈ sortedDesc := hperm1.mem_iff.mpr hgc
      have hgnk : g ∉ kept := fun hk => hgnr (hperm2.mem_iff.mpr hk)
      obtain ⟨h, hmem, hov, hl⟩ := dedupKeep_dropped sortedDesc (fun _ => false) []
        (by intro x hx; simp at hx)
        (by intro h hh; simp at hh)
        (List.sorted_insertionSort _ cands)
        g hgsd hgnk
      rcases hmem with hmem | hmem
      · simp at hmem
      · exact ⟨h, hperm2.mem_iff.mpr hmem, hov, hl⟩

/-- C5 (counterexample): with manuscript "a b c d e f g h" and a transcript
that reads it once, restarts "a b c d e", stumbles, and re-reads "e f g h",
the candidate for manuscript range [4, 8) (length 4) overlaps the candidate
for [5, 8) (length 3), yet the longer one is not kept (the kept groups are
[0, 5) and [5, 8)) — refuting "whenever two candidate groups overlap the one
with the longer phrase is the one kept". -/
theorem c5_counterexample :
    ¬ (List.Pairwise (fun g h => ¬ rangesOverlap g h)
        (detect_retakes (wordsOf ["a","b","c","d","e","f","g","h","a","b","c","d","e","z","e","f","g","h"]) "a b c d e f g h")
      ∧ List.Pairwise (fun g h => g.manuscript_start ≤ h.manuscript_start)
        (detect_retakes (wordsOf ["a","b","c","d","e","f","g","h","a","b","c","d","e","z","e","f","g","h"]) "a b c d e f g h")
      ∧ ∀ g1 ∈ detect_retakes_candidates (wordsOf ["a","b","c","d","e","f","g","h","a","b","c","d","e","z","e","f","g","h"]) "a b c d e f g h",
        ∀ g2 ∈ detect_retakes_candidates (wordsOf ["a","b","c","d","e","f","g","h","a","b","c","d","e","z","e","f","g","h"]) "a b c d e f g h",
          rangesOverlap g1 g2 → groupLen g2 < groupLen g1 →
            g1 ∈ detect_retakes (wordsOf ["a","b","c","d","e","f","g","h","a","b","c","d","e","z","e","f","g","h"]) "a b c d e f g h"
            ∧ g2 ∉ detect_retakes (wordsOf ["a","b","c","d","e","f","g","h","a","b","c","d","e","z","e","f","g","h"]) "a b c d e f g h") := by
  intro hclaim
  obtain ⟨-, -, hC⟩ := hclaim
  have hlen : 7 < (detect_retakes_candidates (wordsOf ["a","b","c","d","e","f","g","h","a","b","c","d","e","z","e","f","g","h"]) "a b c d e f g h").length := by
    decide
  have hlen4 : 4 < (detect_retakes_candidates (wordsOf ["a","b","c","d","e","f","g","h","a","b","c","d","e","z","e","f","g","h"]) "a b c d e f g h").length := by
    omega
  have h7 : (detect_retakes_candidates (wordsOf ["a","b","c","d","e","f","g","h","a","b","c","d","e","z","e","f","g","h"]) "a b c d e f g h").getD 7 default
      ∈ detect_retakes_candidates (wordsOf ["a","b","c","d","e","f","g","h","a","b","c","d","e","z","e","f","g","h"]) "a b c d e f g h" := by
    rw [List.getD_eq_getElem _ _ hlen]
    exact List.getElem_mem _
  have h4 : (detect_retakes_candidates (wordsOf ["a","b","c","d","e","f","g","h","a","b","c","d","e","z","e","f","g","h"]) "a b c d e f g h").getD 4 default
      ∈ detect_retakes_candidates (wordsOf ["a","b","c","d","e","f","g","h","a","b","c","d","e","z","e","f","g","h"]) "a b c d e f g h" := by
    rw [List.getD_eq_getElem _ _ hlen4]
    exact List.getElem_mem _
  have hres := hC _ h7 _ h4 (by decide) (by decide)
  exact absurd hres.1 (by decide)

/-! ## Retake search window (C6) -/

set_option maxRecDepth 100000 in
/-- C6 (counterexample): with a 20-token manuscript read twice in the
transcript (and no longer repeat available), no candidate group of phrase
length 20 is produced — the phrase-length loop `range(3, min(20, len + 1))`
excludes 20. -/
theorem c6_counterexample :
    ¬ ∃ g ∈ detect_retakes_candidates
        (wordsOf ["a","b","c","d","e","f","g","h","i","j","k","l","m","n","o","p","q","r","s","t",
                  "a","b","c","d","e","f","g","h","i","j","k","l","m","n","o","p","q","r","s","t"])
        "a b c d e f g h i j k l m n o p q r s t",
      groupLen g = 20 := by
  decide

/-- C6: the candidate loop searches phrase lengths 3 up to and including 19
(every candidate group's phrase length is in `[3, 19]`), and every window of
an in-range length whose exact normalized token sequence occurs at least
twice in the normalized transcript becomes a candidate group with one take
per occurrence, built by `mkTake` (transcript time span and mean confidence
over the covered words). -/
theorem c6_retake_search (tws : List TranscriptWord) (mtext : String)
    (L s : Nat) (h3 : 3 ≤ L)
    (hcap : L < min 20 ((normalize_text_to_words mtext).length + 1))
    (hs : s + L ≤ (normalize_text_to_words mtext).length)
    (hocc : 1 < (find_phrase_occurrences (tws.map fun w => normalize_word w.word)
        (((normalize_text_to_words mtext).drop s).take L)).length) :
    (∀ g ∈ detect_retakes_candidates tws mtext, 3 ≤ groupLen g ∧ groupLen g ≤ 19)
    ∧ ∃ g ∈ detect_retakes_candidates tws mtext,
        g.manuscript_start = s ∧ g.manuscript_end = s + L
        ∧ g.expected_text = String.intercalate " "
            (((normalize_text_to_words mtext).drop s).take L)
        ∧ g.takes = (find_phrase_occurrences (tws.map fun w => normalize_word w.word)
            (((normalize_text_to_words mtext).drop s).take L)).map
          fun occ_start => mkTake tws L occ_start := by
  constructor
  · intro g hg
    rw [detect_retakes_candidates, List.mem_flatMap] at hg
    obtain ⟨L', hL', hg⟩ := hg
    rw [List.mem_range'_1] at hL'
    rw [List.mem_filterMap] at hg
    obtain ⟨s', _, hsome⟩ := hg
    dsimp only at hsome
    split_ifs at hsome
    cases hsome
    have hm : min 20 ((normalize_text_to_words mtext).length + 1) ≤ 20 :=
      min_le_left _ _
    unfold groupLen
    simp only
    omega
  · have hmin : 3 < min 20 ((normalize_text_to_words mtext).length + 1) :=
      lt_of_le_of_lt h3 hcap
    refine ⟨{ manuscript_start := s, manuscript_end := s + L,
              expected_text := String.intercalate " "
                (((normalize_text_to_words mtext).drop s).take L),
              takes := (find_phrase_occurrences (tws.map fun w => normalize_word w.word)
                  (((normalize_text_to_words mtext).drop s).take L)).map
                fun occ_start => mkTake tws L occ_start }, ?_, rfl, rfl, rfl, rfl⟩
    rw [detect_retakes_candidates]
    simp only [List.mem_flatMap, List.mem_filterMap, List.mem_range'_1, List.mem_range]
    refine ⟨L, ⟨h3, by omega⟩, s, by omega, ?_⟩
    rw [if_pos hocc]

/-- C6 (witness): the search theorem applied to a concrete three-word phrase
spoken twice. -/
theorem c6_retake_search_witness :
    (3 ≤ 3
      ∧ 3 < min 20 ((normalize_text_to_words "a b c").length + 1)
      ∧ 0 + 3 ≤ (normalize_text_to_words "a b c").length
      ∧ 1 < (find_phrase_occurrences
          ((wordsOf ["a","b","c","a","b","c"]).map fun w => normalize_word w.word)
          (((normalize_text_to_words "a b c").drop 0).take 3)).length)
    ∧ ((∀ g ∈ detect_retakes_candidates (wordsOf ["a","b","c","a","b","c"]) "a b c",
          3 ≤ groupLen g ∧ groupLen g ≤ 19)
       ∧ ∃ g ∈ detect_retakes_candidates (wordsOf ["a","b","c","a","b","c"]) "a b c",
          g.manuscript_start = 0 ∧ g.manuscript_end = 0 + 3
          ∧ g.expected_text = String.intercalate " "
              (((normalize_text_to_words "a b c").drop 0).take 3)
          ∧ g.takes = (find_phrase_occurrences
              ((wordsOf ["a","b","c","a","b","c"]).map fun w => normalize_word w.word)
              (((normalize_text_to_words "a b c").drop 0).take 3)).map
            fun occ_start => mkTake (wordsOf ["a","b","c","a","b","c"]) 3 occ_start) :=
  ⟨⟨by decide, by decide, by decide, by decide⟩,
   c6_retake_search (wordsOf ["a","b","c","a","b","c"]) "a b c" 3 0
     (by decide) (by decide) (by decide) (by decide)⟩

/-! ## Conformed track and marker position agreement (C2) -/

theorem conformedPosMapAux_untouched (segs : List AlignedSegment) :
    ∀ (m : Nat → Option ℚ) (pos : ℚ) (id : Nat),
      (∀ s ∈ keptSegments segs, s.segment_index ≠ id) →
      conformedPosMapAux segs m pos id = m id := by
  induction segs with
  | nil => intro m pos id _; rfl
  | cons seg rest ih =>
    intro m pos id hid
    by_cases hk : keptSegment seg
    · rw [conformedPosMapAux, if_pos hk]
      have hne : seg.segment_index ≠ id := by
        apply hid
        unfold keptSegments
        rw [List.filter_cons, if_pos hk]
        exact List.mem_cons_self _ _
      rw [ih _ _ _ fun s hs => hid s (by
        unfold keptSegments at *
        rw [List.filter_cons, if_pos hk]
        exact List.mem_cons_of_mem _ hs)]
      simp [Ne.symm hne]
    · rw [conformedPosMapAux, if_neg hk]
      exact ih _ _ _ fun s hs => hid s (by
        unfold keptSegments at *
        rw [List.filter_cons, if_neg hk]
        exact hs)

theorem buildConformedItemsAux_length (pm : Nat → Option String) (da : String)
    (cmap : Nat → Option ConflictRecord) (segs : List AlignedSegment) :
    ∀ pos : ℚ,
      (buildConformedItemsAux pm da cmap segs pos).length = (keptSegments segs).length := by
  induction segs with
  | nil => intro pos; rfl
  | cons seg rest ih =>
    intro pos
    by_cases hk : keptSegment seg
    · have hkept : keptSegments (seg :: rest) = seg :: keptSegments rest := by
        unfold keptSegments; rw [List.filter_cons, if_pos hk]
      rw [buildConformedItemsAux, if_pos hk, hkept]
      dsimp only
      rw [List.length_cons, List.length_cons, ih]
    · have hkept : keptSegments (seg :: rest) = keptSegments rest := by
        unfold keptSegments; rw [List.filter_cons, if_neg hk]
      rw [buildConformedItemsAux, if_neg hk, hkept]
      exact ih pos

theorem buildConformedItemsAux_forall₂ (pm : Nat → Option String) (da : String)
    (cmap : Nat → Option ConflictRecord) (segs : List AlignedSegment) :
    ∀ (pos : ℚ) (m : Nat → Option ℚ),
      List.Pairwise (fun s t => s.segment_index ≠ t.segment_index) (keptSegments segs) →
      List.Forall₂ (fun (it : RppItem) (s : AlignedSegment) =>
          conformedPosMapAux segs m pos s.segment_index = some it.position
          ∧ it.length = s.end_time - s.start_time)
        (buildConformedItemsAux pm da cmap segs pos) (keptSegments segs) := by
  induction segs with
  | nil => intro pos m _; exact List.Forall₂.nil
  | cons seg rest ih =>
    intro pos m hdist
    by_cases hk : keptSegment seg
    · have hkept : keptSegments (seg :: rest) = seg :: keptSegments rest := by
        unfold keptSegments; rw [List.filter_cons, if_pos hk]
      rw [hkept] at hdist ⊢
      rw [buildConformedItemsAux, if_pos hk]
      have hpair := List.pairwise_cons.mp hdist
      refine List.Forall₂.cons ?_ ?_
      · constructor
        · rw [conformedPosMapAux, if_pos hk]
          rw [conformedPosMapAux_untouched rest _ _ _
            fun s hs => Ne.symm (hpair.1 s hs)]
          simp
        · rfl
      · have htail := ih (pos + (seg.end_time - seg.start_time))
          (fun id => if id = seg.segment_index then some pos else m id) hpair.2
        refine List.Forall₂.imp ?_ htail
        intro it s hrel
        refine ⟨?_, hrel.2⟩
        rw [conformedPosMapAux, if_pos hk]
        exact hrel.1
    · have hkept : keptSegments (seg :: rest) = keptSegments rest := by
        unfold keptSegments; rw [List.filter_cons, if_neg hk]
      rw [hkept] at hdist ⊢
      rw [buildConformedItemsAux, if_neg hk]
      have htail := ih pos m hdist
      refine List.Forall₂.imp ?_ htail
      intro it s hrel
      refine ⟨?_, hrel.2⟩
      rw [conformedPosMapAux, if_neg hk]
      exact hrel.1

theorem buildConformedItemsAux_last (pm : Nat → Option String) (da : String)
    (cmap : Nat → Option ConflictRecord) (segs : List AlignedSegment) :
    ∀ (pos : ℚ) (l : RppItem),
      (buildConformedItemsAux pm da cmap segs pos).getLast? = some l →
      l.position + l.length
        = pos + ((keptSegments segs).map fun s => s.end_time - s.start_time).sum := by
  induction segs with
  | nil => intro pos l h; simp [buildConformedItemsAux] at h
  | cons seg rest ih =>
    intro pos l h
    by_cases hk : keptSegment seg
    · have hkept : keptSegments (seg :: rest) = seg :: keptSegments rest := by
        unfold keptSegments; rw [List.filter_cons, if_pos hk]
      rw [hkept]
      rw [buildConformedItemsAux, if_pos hk] at h
      dsimp only at h
      rcases htail : buildConformedItemsAux pm da cmap rest
          (pos + (seg.end_time - seg.start_time)) with _ | ⟨it2, items2⟩
      · rw [htail] at h
        simp only [List.getLast?_singleton, Option.some.injEq] at h
        subst h
        have hlen := buildConformedItemsAux_length pm da cmap rest
          (pos + (seg.end_time - seg.start_time))
        rw [htail] at hlen
        have : keptSegments rest = [] := List.eq_nil_of_length_eq_zero hlen.symm
        rw [this]
        simp
      · rw [htail] at h
        rw [List.getLast?_cons_cons] at h
        have := ih (pos + (seg.end_time - seg.start_time)) l (by rw [htail]; exact h)
        rw [this]
        simp only [List.map_cons, List.sum_cons]
        ring
    · have hkept : keptSegments (seg :: rest) = keptSegments rest := by
        unfold keptSegments; rw [List.filter_cons, if_neg hk]
      rw [hkept]
      rw [buildConformedItemsAux, if_neg hk] at h
      exact ih pos l h

theorem exportRppMarkersAux_cover (pmapq : Nat → Option ℚ) :
    ∀ (conflicts : List ConflictRecord) (idx0 : Nat) (c : ConflictRecord),
      c ∈ conflicts → ∀ q, pmapq c.segment_index = some q →
      ∃ mk ∈ exportRppMarkersAux pmapq conflicts idx0, mk.position = q := by
  intro conflicts
  induction conflicts with
  | nil => intro idx0 c hc; simp at hc
  | cons c0 rest ih =>
    intro idx0 c hc q hq
    rcases List.mem_cons.mp hc with hc | hc
    · subst hc
      rw [exportRppMarkersAux, hq]
      exact ⟨_, List.mem_cons_self _ _, rfl⟩
    · rcases h0 : pmapq c0.segment_index with _ | p
      · rw [exportRppMarkersAux, h0]
        exact ih idx0 c hc q hq
      · rw [exportRppMarkersAux, h0]
        obtain ⟨mk, hmk, hpos⟩ := ih (idx0 + 1) c hc q hq
        exact ⟨mk, List.mem_cons_of_mem _ hmk, hpos⟩

/-- C2: when the kept segments' indices are pairwise distinct, the conformed
track of `build_conformed_items` and the position map built inside
`export_rpp` agree — each kept segment's item sits at the position the map
records for its segment index (so every marker for a conflict anchored at a
kept segment lands at that segment's item position), and the last item's
position plus length equals the sum of all kept segments' lengths. -/
theorem c2_conformed_positions (pm : Nat → Option String) (da : String)
    (segs : List AlignedSegment) (conflicts : List ConflictRecord)
    (hdist : List.Pairwise (fun s t => s.segment_index ≠ t.segment_index)
      (keptSegments segs)) :
    List.Forall₂ (fun (it : RppItem) (s : AlignedSegment) =>
        conformedPosMap segs s.segment_index = some it.position
        ∧ it.length = s.end_time - s.start_time)
      (build_conformed_items pm da segs conflicts) (keptSegments segs)
    ∧ (∀ c ∈ conflicts, ∀ q, conformedPosMap segs c.segment_index = some q →
        ∃ mk ∈ export_rpp_markers conflicts segs, mk.position = q)
    ∧ (∀ l, (build_conformed_items pm da segs conflicts).getLast? = some l →
        l.position + l.length
          = ((keptSegments segs).map fun s => s.end_time - s.start_time).sum) := by
  refine ⟨?_, ?_, ?_⟩
  · exact buildConformedItemsAux_forall₂ pm da (conflictMap conflicts) segs 0 _ hdist
  · intro c hc q hq
    exact exportRppMarkersAux_cover (conformedPosMap segs) conflicts 1 c hc q hq
  · intro l hl
    have := buildConformedItemsAux_last pm da (conflictMap conflicts) segs 0 l hl
    rw [this]
    ring

/-- C2 (witness): the agreement theorem applied to a concrete input (two
missing segments, so the kept list is empty and trivially distinct). -/
theorem c2_conformed_positions_witness :
    List.Forall₂ (fun (it : RppItem) (s : AlignedSegment) =>
        conformedPosMap
            [{ text := "", expected_text := "y", start_time := 0, end_time := 0,
               confidence := 0, segment_type := "word", segment_index := 0,
               alignment := "missing" }] s.segment_index = some it.position
        ∧ it.length = s.end_time - s.start_time)
      (build_conformed_items (fun _ => none) ""
        [{ text := "", expected_text := "y", start_time := 0, end_time := 0,
           confidence := 0, segment_type := "word", segment_index := 0,
           alignment := "missing" }] [])
      (keptSegments
        [{ text := "", expected_text := "y", start_time := 0, end_time := 0,
           confidence := 0, segment_type := "word", segment_index := 0,
           alignment := "missing" }])
    ∧ (∀ c ∈ ([] : List ConflictRecord), ∀ q,
        conformedPosMap
            [{ text := "", expected_text := "y", start_time := 0, end_time := 0,
               confidence := 0, segment_type := "word", segment_index := 0,
               alignment := "missing" }] c.segment_index = some q →
        ∃ mk ∈ export_rpp_markers []
            [{ text := "", expected_text := "y", start_time := 0, end_time := 0,
               confidence := 0, segment_type := "word", segment_index := 0,
               alignment := "missing" }], mk.position = q)
    ∧ (∀ l, (build_conformed_items (fun _ => none) ""
          [{ text := "", expected_text := "y", start_time := 0, end_time := 0,
             confidence := 0, segment_type := "word", segment_index := 0,
             alignment := "missing" }] []).getLast? = some l →
        l.position + l.length
          = ((keptSegments
              [{ text := "", expected_text := "y", start_time := 0, end_time := 0,
                 confidence := 0, segment_type := "word", segment_index := 0,
                 alignment := "missing" }]).map fun s => s.end_time - s.start_time).sum) :=
  c2_conformed_positions (fun _ => none) "" _ [] (by decide)

/-- C2 (counterexample): with two kept segments both carrying segment_index 0,
the position map only records the later segment's position (1), while the
first segment's item sits at position 0 — the item/map agreement fails
without distinct indices. -/
theorem c2_counterexample :
    ¬ (List.Forall₂ (fun (it : RppItem) (s : AlignedSegment) =>
          conformedPosMap
              [{ text := "a", expected_text := "", start_time := 0, end_time := 1,
                 confidence := 1, segment_type := "word", segment_index := 0,
                 alignment := "match" },
               { text := "b", expected_text := "", start_time := 5, end_time := 7,
                 confidence := 1, segment_type := "word", segment_index := 0,
                 alignment := "match" }] s.segment_index = some it.position
          ∧ it.length = s.end_time - s.start_time)
        (build_conformed_items (fun _ => none) ""
          [{ text := "a", expected_text := "", start_time := 0, end_time := 1,
             confidence := 1, segment_type := "word", segment_index := 0,
             alignment := "match" },
           { text := "b", expected_text := "", start_time := 5, end_time := 7,
             confidence := 1, segment_type := "word", segment_index := 0,
             alignment := "match" }] [])
        (keptSegments
          [{ text := "a", expected_text := "", start_time := 0, end_time := 1,
             confidence := 1, segment_type := "word", segment_index := 0,
             alignment := "match" },
           { text := "b", expected_text := "", start_time := 5, end_time := 7,
             confidence := 1, segment_type := "word", segment_index := 0,
             alignment := "match" }])
      ∧ (∀ c ∈ ([] : List ConflictRecord), ∀ q,
          conformedPosMap
              [{ text := "a", expected_text := "", start_time := 0, end_time := 1,
                 confidence := 1, segment_type := "word", segment_index := 0,
                 alignment := "match" },
               { text := "b", expected_text := "", start_time := 5, end_time := 7,
                 confidence := 1, segment_type := "word", segment_index := 0,
                 alignment := "match" }] c.segment_index = some q →
          ∃ mk ∈ export_rpp_markers []
              [{ text := "a", expected_text := "", start_time := 0, end_time := 1,
                 confidence := 1, segment_type := "word", segment_index := 0,
                 alignment := "match" },
               { text := "b", expected_text := "", start_time := 5, end_time := 7,
                 confidence := 1, segment_type := "word", segment_index := 0,
                 alignment := "match" }], mk.position = q)
      ∧ (∀ l, (build_conformed_items (fun _ => none) ""
            [{ text := "a", expected_text := "", start_time := 0, end_time := 1,
               confidence := 1, segment_type := "word", segment_index := 0,
               alignment := "match" },
             { text := "b", expected_text := "", start_time := 5, end_time := 7,
               confidence := 1, segment_type := "word", segment_index := 0,
               alignment := "match" }] []).getLast? = some l →
          l.position + l.length
            = ((keptSegments
                [{ text := "a", expected_text := "", start_time := 0, end_time := 1,
                   confidence := 1, segment_type := "word", segment_index := 0,
                   alignment := "match" },
                 { text := "b", expected_text := "", start_time := 5, end_time := 7,
                   confidence := 1, segment_type := "word", segment_index := 0,
                   alignment := "match" }]).map fun s => s.end_time - s.start_time).sum)) := by
  intro hP
  obtain ⟨hF, -, -⟩ := hP
  have hkA : keptSegment
      { text := "a", expected_text := "", start_time := 0, end_time := 1,
        confidence := 1, segment_type := "word", segment_index := 0,
        alignment := "match" } = true := by
    unfold keptSegment
    rw [Bool.and_eq_true]
    refine ⟨by decide, ?_⟩
    rw [decide_eq_true_eq]
    norm_num
  have hkB : keptSegment
      { text := "b", expected_text := "", start_time := 5, end_time := 7,
        confidence := 1, segment_type := "word", segment_index := 0,
        alignment := "match" } = true := by
    unfold keptSegment
    rw [Bool.and_eq_true]
    refine ⟨by decide, ?_⟩
    rw [decide_eq_true_eq]
    norm_num
  rw [show keptSegments
      [{ text := "a", expected_text := "", start_time := 0, end_time := 1,
         confidence := 1, segment_type := "word", segment_index := 0,
         alignment := "match" },
       { text := "b", expected_text := "", start_time := 5, end_time := 7,
         confidence := 1, segment_type := "word", segment_index := 0,
         alignment := "match" }]
      = [{ text := "a", expected_text := "", start_time := 0, end_time := 1,
           confidence := 1, segment_type := "word", segment_index := 0,
           alignment := "match" },
         { text := "b", expected_text := "", start_time := 5, end_time := 7,
           confidence := 1, segment_type := "word", segment_index := 0,
           alignment := "match" }]
    from by simp [keptSegments, List.filter_cons, hkA, hkB]] at hF
  rw [build_conformed_items] at hF
  simp only [buildConformedItemsAux, hkA, hkB, if_true] at hF
  cases hF with
  | cons h1 h2 =>
    obtain ⟨hpos, -⟩ := h1
    have hmap : conformedPosMap
        [{ text := "a", expected_text := "", start_time := 0, end_time := 1,
           confidence := 1, segment_type := "word", segment_index := 0,
           alignment := "match" },
         { text := "b", expected_text := "", start_time := 5, end_time := 7,
           confidence := 1, segment_type := "word", segment_index := 0,
           alignment := "match" }] 0 = some (0 + ((1 : ℚ) - 0)) := by
      unfold conformedPosMap
      simp only [conformedPosMapAux, hkA, hkB, if_true]
    rw [hmap] at hpos
    simp only [Option.some.injEq] at hpos
    norm_num at hpos

/-! ## Soundness of `find_longest_match` -/

theorem flmInner_inv (a b : List String) (alo ahi blo bhi i : Nat)
    (hi1 : alo ≤ i) (hi2 : i < ahi) (old : Nat → Nat)
    (hold : RowInv a b alo blo bhi i old) :
    ∀ (js : List Nat) (newm : Nat → Nat) (best : Nat × Nat × Nat),
      (∀ j ∈ js, b.getD j "" = a.getD i "") →
      RowInv a b alo blo bhi (i + 1) newm →
      BestInv a b alo ahi blo bhi best →
      RowInv a b alo blo bhi (i + 1) (flmInner blo bhi i old js newm best).1
      ∧ BestInv a b alo ahi blo bhi (flmInner blo bhi i old js newm best).2 := by
  intro js
  induction js with
  | nil => intro newm best _ hn hb; exact ⟨hn, hb⟩
  | cons j js ih =>
    intro newm best hjs hn hb
    rw [flmInner]
    by_cases h1 : j < blo
    · simp only [if_pos h1]
      exact ih newm best (fun j' hj' => hjs j' (List.mem_cons_of_mem j hj')) hn hb
    · rw [if_neg h1]
      by_cases h2 : bhi ≤ j
      · rw [if_pos h2]; exact ⟨hn, hb⟩
      · rw [if_neg h2]
        have hbj : b.getD j "" = a.getD i "" := hjs j (List.mem_cons_self j js)
        have hkey : blo + ((if j = 0 then 0 else old (j - 1)) + 1) ≤ j + 1
            ∧ alo + ((if j = 0 then 0 else old (j - 1)) + 1) ≤ i + 1
            ∧ ∀ t < (if j = 0 then 0 else old (j - 1)) + 1,
                a.getD (i + 1 - ((if j = 0 then 0 else old (j - 1)) + 1) + t) ""
                  = b.getD (j + 1 - ((if j = 0 then 0 else old (j - 1)) + 1) + t) "" := by
          by_cases hj0 : j = 0
          · subst hj0
            have hblo : blo = 0 := by omega
            rw [if_pos rfl]
            refine ⟨by omega, by omega, ?_⟩
            intro t ht
            have ht0 : t = 0 := by omega
            subst ht0
            have hia : i + 1 - 1 + 0 = i := by omega
            rw [hia]
            exact hbj.symm
          · rw [if_neg hj0]
            by_cases hz : old (j - 1) = 0
            · rw [hz]
              refine ⟨by omega, by omega, ?_⟩
              intro t ht
              have ht0 : t = 0 := by omega
              subst ht0
              have hia : i + 1 - 1 + 0 = i := by omega
              have hja : j + 1 - 1 + 0 = j := by omega
              rw [hia, hja]
              exact hbj.symm
            · obtain ⟨hK1, hK2, _, hKrun⟩ := hold (j - 1) hz
              refine ⟨by omega, by omega, ?_⟩
              intro t ht
              by_cases htK : t < old (j - 1)
              · have hia : i + 1 - (old (j - 1) + 1) + t = i - old (j - 1) + t := by omega
                have hja : j + 1 - (old (j - 1) + 1) + t = j - 1 + 1 - old (j - 1) + t := by
                  omega
                rw [hia, hja]
                exact hKrun t htK
              · have htedge : t = old (j - 1) := by omega
                subst htedge
                have hia : i + 1 - (old (j - 1) + 1) + old (j - 1) = i := by omega
                have hja : j + 1 - (old (j - 1) + 1) + old (j - 1) = j := by omega
                rw [hia, hja]
                exact hbj.symm
        refine ih _ _ (fun j' hj' => hjs j' (List.mem_cons_of_mem j hj')) ?_ ?_
        · intro x hx
          by_cases hxj : x = j
          · subst hxj
            simp only [if_pos rfl] at hx ⊢
            exact ⟨hkey.1, hkey.2.1, lt_of_not_le h2, hkey.2.2⟩
          · simp only [if_neg hxj] at hx ⊢
            exact hn x hx
        · by_cases hlt : best.2.2 < (if j = 0 then 0 else old (j - 1)) + 1
          · rw [if_pos hlt]
            obtain ⟨hk1, hk2, hk3⟩ := hkey
            constructor
            · intro habs
              dsimp only at habs
              omega
            · intro _
              dsimp only
              refine ⟨by omega, by omega, by omega, by omega, hk3⟩
          · rw [if_neg hlt]
            exact hb

theorem flmOuter_inv (a b : List String) (alo ahi blo bhi : Nat) :
    ∀ (cnt i : Nat), alo ≤ i → i + cnt ≤ ahi →
      ∀ (m : Nat → Nat) (best : Nat × Nat × Nat),
        RowInv a b alo blo bhi i m →
        BestInv a b alo ahi blo bhi best →
        BestInv a b alo ahi blo bhi
          (flmOuter a b blo bhi (List.range' i cnt) m best).2 := by
  intro cnt
  induction cnt with
  | zero => intro i _ _ m best _ hb; exact hb
  | succ n ihn =>
    intro i hi1 hi2 m best hm hb
    have hr : List.range' i (n + 1) = i :: List.range' (i + 1) n := List.range'_succ i n 1
    rw [hr, flmOuter]
    have hjs : ∀ j ∈ occList b (a.getD i ""), b.getD j "" = a.getD i "" := by
      intro j hj
      unfold occList at hj
      have := List.of_mem_filter hj
      simpa using this
    have hnew0 : RowInv a b alo blo bhi (i + 1) (fun _ => 0) := by
      intro j hj
      simp at hj
    have hstep := flmInner_inv a b alo ahi blo bhi i hi1 (by omega) m hm
      (occList b (a.getD i "")) (fun _ => 0) best hjs hnew0 hb
    exact ihn (i + 1) (by omega) (by omega) _ _ hstep.1 hstep.2

theorem flmExtendLeft_sound (a b : List String) (alo blo ahi bhi : Nat) :
    ∀ (besti bestj bestsize : Nat),
      alo ≤ besti → blo ≤ bestj → besti + bestsize ≤ ahi → bestj + bestsize ≤ bhi →
      (∀ t < bestsize, a.getD (besti + t) "" = b.getD (bestj + t) "") →
      alo ≤ (flmExtendLeft a b alo blo besti bestj bestsize).1
      ∧ blo ≤ (flmExtendLeft a b alo blo besti bestj bestsize).2.1
      ∧ (flmExtendLeft a b alo blo besti bestj bestsize).1
          + (flmExtendLeft a b alo blo besti bestj bestsize).2.2 ≤ ahi
      ∧ (flmExtendLeft a b alo blo besti bestj bestsize).2.1
          + (flmExtendLeft a b alo blo besti bestj bestsize).2.2 ≤ bhi
      ∧ ∀ t < (flmExtendLeft a b alo blo besti bestj bestsize).2.2,
          a.getD ((flmExtendLeft a b alo blo besti bestj bestsize).1 + t) ""
            = b.getD ((flmExtendLeft a b alo blo besti bestj bestsize).2.1 + t) "" := by
  intro besti
  induction besti with
  | zero =>
    intro bestj bestsize h1 h2 h3 h4 h5
    rw [flmExtendLeft]
    exact ⟨by omega, h2, h3, h4, h5⟩
  | succ bi ihb =>
    intro bestj bestsize h1 h2 h3 h4 h5
    rw [flmExtendLeft]
    by_cases hcond : (alo < bi + 1 && blo < bestj
        && (a.getD bi "" == b.getD (bestj - 1) "")) = true
    · rw [if_pos hcond]
      simp only [Bool.and_eq_true, decide_eq_true_eq, beq_iff_eq] at hcond
      obtain ⟨⟨hc1, hc2⟩, hc3⟩ := hcond
      refine ihb (bestj - 1) (bestsize + 1) (by omega) (by omega) (by omega) (by omega) ?_
      intro t ht
      by_cases ht0 : t = 0
      · subst ht0
        simpa using hc3
      · have hia : bi + t = bi + 1 + (t - 1) := by omega
        have hja : bestj - 1 + t = bestj + (t - 1) := by omega
        rw [hia, hja]
        exact h5 (t - 1) (by omega)
    · rw [if_neg hcond]
      exact ⟨h1, h2, h3, h4, h5⟩

theorem flmExtendRight_sound (a b : List String) (bhi besti bestj ahi : Nat) :
    ∀ (fuel bestsize : Nat),
      besti + bestsize + fuel = ahi →
      bestj + bestsize ≤ bhi →
      (∀ t < bestsize, a.getD (besti + t) "" = b.getD (bestj + t) "") →
      besti + flmExtendRight a b bhi besti bestj fuel bestsize ≤ ahi
      ∧ bestj + flmExtendRight a b bhi besti bestj fuel bestsize ≤ bhi
      ∧ ∀ t < flmExtendRight a b bhi besti bestj fuel bestsize,
          a.getD (besti + t) "" = b.getD (bestj + t) "" := by
  intro fuel
  induction fuel with
  | zero =>
    intro bestsize h1 h2 h3
    rw [flmExtendRight]
    exact ⟨by omega, h2, h3⟩
  | succ f ihf =>
    intro bestsize h1 h2 h3
    rw [flmExtendRight]
    by_cases hcond : (bestj + bestsize < bhi
        && (a.getD (besti + bestsize) "" == b.getD (bestj + bestsize) "")) = true
    · rw [if_pos hcond]
      simp only [Bool.and_eq_true, decide_eq_true_eq, beq_iff_eq] at hcond
      refine ihf (bestsize + 1) (by omega) (by omega) ?_
      intro t ht
      by_cases htb : t = bestsize
      · subst htb; exact hcond.2
      · exact h3 t (by omega)
    · rw [if_neg hcond]
      exact ⟨by omega, h2, h3⟩

theorem find_longest_match_sound (a b : List String) (alo ahi blo bhi : Nat)
    (h1 : alo ≤ ahi) (h2 : blo ≤ bhi) :
    alo ≤ (find_longest_match a b alo ahi blo bhi).1
    ∧ blo ≤ (find_longest_match a b alo ahi blo bhi).2.1
    ∧ (find_longest_match a b alo ahi blo bhi).1
        + (find_longest_match a b alo ahi blo bhi).2.2 ≤ ahi
    ∧ (find_longest_match a b alo ahi blo bhi).2.1
        + (find_longest_match a b alo ahi blo bhi).2.2 ≤ bhi
    ∧ ∀ t < (find_longest_match a b alo ahi blo bhi).2.2,
        a.getD ((find_longest_match a b alo ahi blo bhi).1 + t) ""
          = b.getD ((find_longest_match a b alo ahi blo bhi).2.1 + t) "" := by
  have hbest0 : BestInv a b alo ahi blo bhi (alo, blo, 0) := by
    constructor
    · intro _; rfl
    · intro habs; simp at habs
  have hrow0 : RowInv a b alo blo bhi alo (fun _ => 0) := by
    intro j hj; simp at hj
  have houter := flmOuter_inv a b alo ahi blo bhi (ahi - alo) alo le_rfl (by omega)
    (fun _ => 0) (alo, blo, 0) hrow0 hbest0
  rw [find_longest_match]
  set st := flmOuter a b blo bhi (List.range' alo (ahi - alo)) (fun _ => 0) (alo, blo, 0)
    with hst
  have hpre : alo ≤ st.2.1 ∧ blo ≤ st.2.2.1 ∧ st.2.1 + st.2.2.2 ≤ ahi
      ∧ st.2.2.1 + st.2.2.2 ≤ bhi
      ∧ ∀ t < st.2.2.2, a.getD (st.2.1 + t) "" = b.getD (st.2.2.1 + t) "" := by
    by_cases hz : st.2.2.2 = 0
    · have := houter.1 hz
      rw [this]
      refine ⟨le_rfl, le_rfl, by simpa using h1, by simpa using h2, ?_⟩
      intro t ht
      exact absurd ht (Nat.not_lt_zero t)
    · exact houter.2 hz
  have hleft := flmExtendLeft_sound a b alo blo ahi bhi st.2.1 st.2.2.1 st.2.2.2
    hpre.1 hpre.2.1 hpre.2.2.1 hpre.2.2.2.1 hpre.2.2.2.2
  set l := flmExtendLeft a b alo blo st.2.1 st.2.2.1 st.2.2.2 with hl
  have hright := flmExtendRight_sound a b bhi l.1 l.2.1 ahi (ahi - (l.1 + l.2.2)) l.2.2
    (by omega) hleft.2.2.2.1 hleft.2.2.2.2
  exact ⟨hleft.1, hleft.2.1, hright.1, hright.2.1, hright.2.2⟩

/-! ## Soundness of `get_matching_blocks` and `get_opcodes` -/

theorem BlocksSound_mono (a b : List String) :
    ∀ (blocks : List (Nat × Nat × Nat)) (alo ahi blo bhi alo' ahi' blo' bhi' : Nat),
      alo' ≤ alo → blo' ≤ blo → ahi ≤ ahi' → bhi ≤ bhi' →
      BlocksSound a b alo ahi blo bhi blocks →
      BlocksSound a b alo' ahi' blo' bhi' blocks := by
  intro blocks
  induction blocks with
  | nil => intro _ _ _ _ _ _ _ _ _ _ _ _ _; trivial
  | cons blk rest ih =>
    rcases blk with ⟨i, j, k⟩
    intro alo ahi blo bhi alo' ahi' blo' bhi' ha hb hc hd hs
    obtain ⟨s1, s2, s3, s4, s5, s6, s7⟩ := hs
    exact ⟨by omega, by omega, by omega, by omega, s5, s6,
      ih (i + k) ahi (j + k) bhi (i + k) ahi' (j + k) bhi' le_rfl le_rfl hc hd s7⟩

theorem BlocksSound_append (a b : List String) :
    ∀ (L M : List (Nat × Nat × Nat)) (alo mid blo midb ahi bhi : Nat),
      alo ≤ mid → mid ≤ ahi → blo ≤ midb → midb ≤ bhi →
      BlocksSound a b alo mid blo midb L →
      BlocksSound a b mid ahi midb bhi M →
      BlocksSound a b alo ahi blo bhi (L ++ M) := by
  intro L
  induction L with
  | nil =>
    intro M alo mid blo midb ahi bhi h1 h2 h3 h4 _ hM
    rw [List.nil_append]
    exact BlocksSound_mono a b M mid ahi midb bhi alo ahi blo bhi h1 h3 le_rfl le_rfl hM
  | cons blk L' ih =>
    rcases blk with ⟨i, j, k⟩
    intro M alo mid blo midb ahi bhi h1 h2 h3 h4 hL hM
    obtain ⟨s1, s2, s3, s4, s5, s6, s7⟩ := hL
    exact ⟨s1, s2, by omega, by omega, s5, s6,
      ih M (i + k) mid (j + k) midb ahi bhi s3 h2 s4 h4 s7 hM⟩

theorem matchingBlocksAux_sound (a b : List String) :
    ∀ (fuel alo ahi blo bhi : Nat), alo ≤ ahi → blo ≤ bhi →
      BlocksSound a b alo ahi blo bhi (matchingBlocksAux a b fuel alo ahi blo bhi) := by
  intro fuel
  induction fuel with
  | zero => intro alo ahi blo bhi _ _; trivial
  | succ f ih =>
    intro alo ahi blo bhi h1 h2
    rw [matchingBlocksAux]
    by_cases hz : (find_longest_match a b alo ahi blo bhi).2.2 = 0
    · rw [if_pos hz]; trivial
    · rw [if_neg hz]
      obtain ⟨m1, m2, m3, m4, m5⟩ := find_longest_match_sound a b alo ahi blo bhi h1 h2
      have hleft := ih alo (find_longest_match a b alo ahi blo bhi).1 blo
        (find_longest_match a b alo ahi blo bhi).2.1 m1 m2
      have hright := ih ((find_longest_match a b alo ahi blo bhi).1
          + (find_longest_match a b alo ahi blo bhi).2.2) ahi
        ((find_longest_match a b alo ahi blo bhi).2.1
          + (find_longest_match a b alo ahi blo bhi).2.2) bhi (by omega) (by omega)
      refine BlocksSound_append a b _ _ alo
        (find_longest_match a b alo ahi blo bhi).1 blo
        (find_longest_match a b alo ahi blo bhi).2.1 ahi bhi
        m1 (by omega) m2 (by omega) hleft ?_
      exact ⟨le_rfl, le_rfl, m3, m4, hz, m5, hright⟩

theorem mergeBlocks_sound (a b : List String) (ahi bhi : Nat) :
    ∀ (blocks : List (Nat × Nat × Nat)) (i1 j1 k1 : Nat),
      BlocksSound a b (i1 + k1) ahi (j1 + k1) bhi blocks →
      i1 + k1 ≤ ahi → j1 + k1 ≤ bhi →
      (∀ t < k1, a.getD (i1 + t) "" = b.getD (j1 + t) "") →
      BlocksSound a b i1 ahi j1 bhi (mergeBlocks (i1, j1, k1) blocks) := by
  intro blocks
  induction blocks with
  | nil =>
    intro i1 j1 k1 _ hb1 hb2 hmt
    rw [mergeBlocks]
    by_cases hk : k1 ≠ 0
    · rw [if_pos hk]
      exact ⟨le_rfl, le_rfl, hb1, hb2, hk, hmt, trivial⟩
    · rw [if_neg hk]; trivial
  | cons blk rest ih =>
    rcases blk with ⟨i2, j2, k2⟩
    intro i1 j1 k1 hs hb1 hb2 hmt
    obtain ⟨s1, s2, s3, s4, s5, s6, s7⟩ := hs
    rw [mergeBlocks]
    by_cases hcond : i1 + k1 = i2 ∧ j1 + k1 = j2
    · rw [if_pos hcond]
      refine ih i1 j1 (k1 + k2) ?_ (by omega) (by omega) ?_
      · have hieq : i1 + (k1 + k2) = i2 + k2 := by omega
        have hjeq : j1 + (k1 + k2) = j2 + k2 := by omega
        rw [hieq, hjeq]
        exact s7
      · intro t ht
        by_cases htk : t < k1
        · exact hmt t htk
        · have hia : i1 + t = i2 + (t - k1) := by omega
          have hja : j1 + t = j2 + (t - k1) := by omega
          rw [hia, hja]
          exact s6 (t - k1) (by omega)
    · rw [if_neg hcond]
      have hrest := ih i2 j2 k2 s7 s3 s4 s6
      by_cases hk : k1 ≠ 0
      · rw [if_pos hk]
        refine ⟨le_rfl, le_rfl, hb1, hb2, hk, hmt, ?_⟩
        exact BlocksSound_mono a b _ i2 ahi j2 bhi (i1 + k1) ahi (j1 + k1) bhi
          s1 s2 le_rfl le_rfl hrest
      · rw [if_neg hk]
        rw [List.nil_append]
        exact BlocksSound_mono a b _ i2 ahi j2 bhi i1 ahi j1 bhi
          (by omega) (by omega) le_rfl le_rfl hrest

theorem BlocksSound_chainTo (a b : List String) (la lb : Nat) :
    ∀ (blocks : List (Nat × Nat × Nat)) (i j : Nat),
      BlocksSound a b i la j lb blocks → i ≤ la → j ≤ lb →
      BlocksChainTo a b i j la lb (blocks ++ [(la, lb, 0)]) := by
  intro blocks
  induction blocks with
  | nil =>
    intro i j _ h1 h2
    refine ⟨h1, h2, ?_, ?_⟩
    · intro t ht; omega
    · exact ⟨rfl, rfl⟩
  | cons blk rest ih =>
    rcases blk with ⟨ai, bj, k⟩
    intro i j hs h1 h2
    obtain ⟨s1, s2, s3, s4, s5, s6, s7⟩ := hs
    exact ⟨s1, s2, s6, ih (ai + k) (bj + k) s7 s3 s4⟩

theorem get_matching_blocks_chain (a b : List String) :
    BlocksChainTo a b 0 0 a.length b.length (get_matching_blocks a b) := by
  rw [get_matching_blocks]
  refine BlocksSound_chainTo a b a.length b.length _ 0 0 ?_ (by omega) (by omega)
  refine mergeBlocks_sound a b a.length b.length _ 0 0 0 ?_ (by omega) (by omega)
    (by intro t ht; omega)
  exact matchingBlocksAux_sound a b (a.length + b.length) 0 a.length 0 b.length
    (by omega) (by omega)

theorem opcodesFromBlocks_chain (a b : List String) (iE jE : Nat) :
    ∀ (blocks : List (Nat × Nat × Nat)) (i j : Nat),
      BlocksChainTo a b i j iE jE blocks →
      OpsChain a b i j iE jE (opcodesFromBlocks i j blocks) := by
  intro blocks
  induction blocks with
  | nil => intro i j hc; exact hc
  | cons blk rest ih =>
    rcases blk with ⟨ai, bj, size⟩
    intro i j hc
    obtain ⟨c1, c2, c3, c4⟩ := hc
    rw [opcodesFromBlocks]
    have hcont : OpsChain a b ai bj iE jE
        ((if size ≠ 0 then [⟨Tag.equal, ai, ai + size, bj, bj + size⟩] else [])
          ++ opcodesFromBlocks (ai + size) (bj + size) rest) := by
      by_cases hsz : size ≠ 0
      · rw [if_pos hsz, List.singleton_append]
        refine ⟨rfl, rfl, Nat.le_add_right ai size, Nat.le_add_right bj size, ?_,
          ih (ai + size) (bj + size) c4⟩
        unfold TagOK
        refine ⟨by dsimp only; omega, ?_⟩
        intro t ht
        dsimp only at ht ⊢
        have hts : t < size := by omega
        exact c3 t hts
      · rw [if_neg hsz, List.nil_append]
        have hsz0 : size = 0 := by omega
        have := ih (ai + size) (bj + size) c4
        rw [hsz0] at this ⊢
        simpa using this
    by_cases hi : i < ai
    · by_cases hj : j < bj
      · rw [if_pos ⟨hi, hj⟩, List.singleton_append]
        refine ⟨rfl, rfl, le_of_lt hi, le_of_lt hj, ?_, hcont⟩
        unfold TagOK
        exact ⟨hi, hj⟩
      · have hcond1 : ¬(i < ai ∧ j < bj) := fun h => hj h.2
        rw [if_neg hcond1, if_pos hi, List.singleton_append]
        have hjeq : j = bj := by omega
        refine ⟨rfl, rfl, le_of_lt hi, c2, ?_, hcont⟩
        unfold TagOK
        exact ⟨hi, hjeq⟩
    · have hieq : i = ai := by omega
      have hcond1 : ¬(i < ai ∧ j < bj) := fun h => hi h.1
      rw [if_neg hcond1, if_neg hi]
      by_cases hj : j < bj
      · rw [if_pos hj, List.singleton_append]
        refine ⟨rfl, rfl, c1, le_of_lt hj, ?_, hcont⟩
        unfold TagOK
        exact ⟨hieq, hj⟩
      · have hjeq : j = bj := by omega
        rw [if_neg hj, List.nil_append]
        rw [hieq, hjeq]
        exact hcont

theorem get_opcodes_chain (a b : List String) :
    OpsChain a b 0 0 a.length b.length (get_opcodes a b) :=
  opcodesFromBlocks_chain a b a.length b.length _ 0 0 (get_matching_blocks_chain a b)

theorem opsChain_end_le (a b : List String) :
    ∀ (ops : List Opcode) (i j iE jE : Nat),
      OpsChain a b i j iE jE ops → i ≤ iE ∧ j ≤ jE := by
  intro ops
  induction ops with
  | nil => intro i j iE jE hc; exact ⟨hc.1.le, hc.2.le⟩
  | cons op rest ih =>
    intro i j iE jE hc
    obtain ⟨h1, h2, h3, h4, _, h6⟩ := hc
    have := ih op.i2 op.j2 iE jE h6
    omega

theorem opsChain_mem (a b : List String) :
    ∀ (ops : List Opcode) (i j iE jE : Nat),
      OpsChain a b i j iE jE ops →
      ∀ op ∈ ops, TagOK a b op ∧ op.i1 ≤ op.i2 ∧ op.j1 ≤ op.j2
        ∧ op.i2 ≤ iE ∧ op.j2 ≤ jE := by
  intro ops
  induction ops with
  | nil => intro i j iE jE _ op hop; simp at hop
  | cons op0 rest ih =>
    intro i j iE jE hc op hop
    obtain ⟨h1, h2, h3, h4, h5, h6⟩ := hc
    rcases List.mem_cons.mp hop with hop | hop
    · subst hop
      have := opsChain_end_le a b rest op.i2 op.j2 iE jE h6
      exact ⟨h5, h3, h4, this.1, this.2⟩
    · exact ih op0.i2 op0.j2 iE jE h6 op hop

theorem opsChain_sum (a b : List String) :
    ∀ (ops : List Opcode) (i j iE jE : Nat),
      OpsChain a b i j iE jE ops →
      (ops.map fun op => op.i2 - op.i1).sum = iE - i
      ∧ (ops.map fun op => op.j2 - op.j1).sum = jE - j := by
  intro ops
  induction ops with
  | nil =>
    intro i j iE jE hc
    rw [hc.1, hc.2]
    simp
  | cons op rest ih =>
    intro i j iE jE hc
    obtain ⟨h1, h2, h3, h4, _, h6⟩ := hc
    have hrest := ih op.i2 op.j2 iE jE h6
    have hend := opsChain_end_le a b rest op.i2 op.j2 iE jE h6
    simp only [List.map_cons, List.sum_cons, hrest.1, hrest.2]
    omega

/-! ## Segment index contiguity (C1) -/

theorem segments_of_opcode_map_index (tws : List TranscriptWord)
    (mwords : List String) (op : Opcode) (sidx : Nat) :
    (segments_of_opcode tws mwords op sidx).map (fun s => s.segment_index)
      = List.range' sidx (numSegments op) := by
  rcases op with ⟨tag, i1, i2, j1, j2⟩
  cases tag <;>
    simp [segments_of_opcode, numSegments, List.map_map, Function.comp,
      apply_ite (fun s : AlignedSegment => s.segment_index), List.range'_eq_map_range]

theorem align_from_opcodes_map_index (tws : List TranscriptWord)
    (mwords : List String) :
    ∀ (ops : List Opcode) (sidx : Nat),
      (align_from_opcodes tws mwords ops sidx).map (fun s => s.segment_index)
        = List.range' sidx (align_from_opcodes tws mwords ops sidx).length := by
  intro ops
  induction ops with
  | nil => intro sidx; rfl
  | cons op rest ih =>
    intro sidx
    rw [align_from_opcodes, List.map_append, List.length_append,
      segments_of_opcode_map_index, ih]
    have hlen : (segments_of_opcode tws mwords op sidx).length = numSegments op := by
      rcases op with ⟨tag, i1, i2, j1, j2⟩
      cases tag <;> simp [segments_of_opcode, numSegments]
    rw [hlen]
    have := List.range'_append sidx (numSegments op)
      (align_from_opcodes tws mwords rest (sidx + numSegments op)).length 1
    simp only [one_mul] at this
    rw [this, Nat.add_comm]

/-- C1: for every transcript word list and manuscript text, the
segment_index values of `align_transcript_to_manuscript`'s output are
exactly 0..n-1 in output order, with no gaps or repeats. -/
theorem c1_segment_indices_contiguous (tws : List TranscriptWord)
    (manuscript_text : String) :
    (align_transcript_to_manuscript tws manuscript_text).map (fun s => s.segment_index)
      = List.range (align_transcript_to_manuscript tws manuscript_text).length := by
  rw [List.range_eq_range']
  exact align_from_opcodes_map_index tws _ _ 0

/-! ## Per-opcode segment facts (C9, C4, C3) -/

theorem align_from_opcodes_mem (tws : List TranscriptWord) (mwords : List String) :
    ∀ (ops : List Opcode) (sidx : Nat) (seg : AlignedSegment),
      seg ∈ align_from_opcodes tws mwords ops sidx →
      ∃ op ∈ ops, ∃ s', seg ∈ segments_of_opcode tws mwords op s' := by
  intro ops
  induction ops with
  | nil => intro sidx seg h; simp [align_from_opcodes] at h
  | cons op rest ih =>
    intro sidx seg h
    rw [align_from_opcodes, List.mem_append] at h
    rcases h with h | h
    · exact ⟨op, List.mem_cons_self _ _, sidx, h⟩
    · obtain ⟨op', hop', s', hs'⟩ := ih _ seg h
      exact ⟨op', List.mem_cons_of_mem _ hop', s', hs'⟩

theorem getD_map_normalize (tws : List TranscriptWord) (n : Nat) (hn : n < tws.length) :
    (tws.map fun w => normalize_word w.word).getD n ""
      = normalize_word (tws.getD n default).word := by
  rw [List.getD_eq_getElem _ _ (by simpa using hn), List.getD_eq_getElem _ _ hn]
  simp

theorem segment_match_of_opcode (tws : List TranscriptWord) (mwords : List String)
    (op : Opcode) (sidx : Nat) (seg : AlignedSegment)
    (hseg : seg ∈ segments_of_opcode tws mwords op sidx)
    (halign : seg.alignment = "match")
    (htag : TagOK (tws.map fun w => normalize_word w.word) mwords op)
    (hbound : op.i2 ≤ tws.length) :
    normalize_word seg.text = seg.expected_text := by
  rcases op with ⟨tag, i1, i2, j1, j2⟩
  cases tag with
  | equal =>
    simp only [segments_of_opcode, List.mem_map, List.mem_range] at hseg
    obtain ⟨t, ht, hrec⟩ := hseg
    subst hrec
    unfold TagOK at htag
    simp only at htag ht hbound ⊢
    have hta : t < i2 - i1 := lt_of_lt_of_le ht (min_le_left _ _)
    have hidx : i1 + t < tws.length := by omega
    have h2 := htag.2 t hta
    rw [getD_map_normalize tws (i1 + t) hidx] at h2
    exact h2
  | replace =>
    simp only [segments_of_opcode, List.mem_map, List.mem_range] at hseg
    obtain ⟨k, hk, hrec⟩ := hseg
    exfalso
    split_ifs at hrec <;> (subst hrec; simp at halign)
  | insert =>
    simp only [segments_of_opcode, List.mem_map, List.mem_range] at hseg
    obtain ⟨t, ht, hrec⟩ := hseg
    exfalso
    subst hrec
    simp at halign
  | delete =>
    simp only [segments_of_opcode, List.mem_map, List.mem_range] at hseg
    obtain ⟨t, ht, hrec⟩ := hseg
    exfalso
    subst hrec
    simp at halign

/-- C9: every segment labeled `match` in the output of
`align_transcript_to_manuscript` stores as `expected_text` exactly the
normalization of its surface transcript text:
`normalize_word seg.text = seg.expected_text`. -/
theorem c9_match_segments_normalized (tws : List TranscriptWord) (mtext : String) :
    ∀ seg ∈ align_transcript_to_manuscript tws mtext, seg.alignment = "match" →
      normalize_word seg.text = seg.expected_text := by
  intro seg hseg halign
  unfold align_transcript_to_manuscript at hseg
  obtain ⟨op, hop, s', hs'⟩ := align_from_opcodes_mem tws _ _ 0 seg hseg
  have hchain := get_opcodes_chain (tws.map fun w => normalize_word w.word)
    (normalize_text_to_words mtext)
  have hfacts := opsChain_mem _ _ _ 0 0 _ _ hchain op hop
  refine segment_match_of_opcode tws _ op s' seg hs' halign hfacts.1 ?_
  have := hfacts.2.2.2.1
  simpa using this

/-- C9 (witness): the normalization property applied to a concrete match
segment. -/
theorem c9_match_segments_normalized_witness :
    (⟨"Hi", "hi", 0, 1, 1, "word", 0, "match", none⟩ : AlignedSegment)
        ∈ align_transcript_to_manuscript (wordsOf ["Hi"]) "hi"
    ∧ normalize_word "Hi" = "hi" :=
  ⟨by decide,
   c9_match_segments_normalized (wordsOf ["Hi"]) "hi"
     ⟨"Hi", "hi", 0, 1, 1, "word", 0, "match", none⟩ (by decide) (by decide)⟩

/-- C4: every `missing` segment of `align_transcript_to_manuscript` (from a
replace run or an insert run) carries as its start and end time the start
time of the transcript word immediately following the gap in its opcode
context when one exists, else the end time of the transcript word
immediately preceding it, else 0. -/
theorem c4_missing_segment_times (tws : List TranscriptWord) (mtext : String) :
    ∀ seg ∈ align_transcript_to_manuscript tws mtext, seg.alignment = "missing" →
      ∃ op ∈ get_opcodes (tws.map fun w => normalize_word w.word)
          (normalize_text_to_words mtext),
        (op.tag = Tag.replace ∨ op.tag = Tag.insert)
        ∧ seg.start_time = (if op.i2 < tws.length then (tws.getD op.i2 default).start
            else if 0 < op.i1 then (tws.getD (op.i1 - 1) default).stop else 0)
        ∧ seg.end_time = (if op.i2 < tws.length then (tws.getD op.i2 default).start
            else if 0 < op.i1 then (tws.getD (op.i1 - 1) default).stop else 0) := by
  intro seg hseg halign
  unfold align_transcript_to_manuscript at hseg
  obtain ⟨op, hop, s', hs'⟩ := align_from_opcodes_mem tws _ _ 0 seg hseg
  have hchain := get_opcodes_chain (tws.map fun w => normalize_word w.word)
    (normalize_text_to_words mtext)
  have hfacts := opsChain_mem _ _ _ 0 0 _ _ hchain op hop
  refine ⟨op, hop, ?_⟩
  rcases hopc : op with ⟨tag, i1, i2, j1, j2⟩
  subst hopc
  cases tag with
  | equal =>
    exfalso
    simp only [segments_of_opcode, List.mem_map, List.mem_range] at hs'
    obtain ⟨t, _, hrec⟩ := hs'
    subst hrec
    simp at halign
  | delete =>
    exfalso
    simp only [segments_of_opcode, List.mem_map, List.mem_range] at hs'
    obtain ⟨t, _, hrec⟩ := hs'
    subst hrec
    simp at halign
  | replace =>
    refine ⟨Or.inl rfl, ?_⟩
    simp only [segments_of_opcode, List.mem_map, List.mem_range] at hs'
    obtain ⟨k, hk, hrec⟩ := hs'
    split_ifs at hrec
    · subst hrec; simp at halign
    · subst hrec; simp at halign
    · subst hrec
      simp only
      unfold estimate_missing_time
      exact ⟨rfl, rfl⟩
  | insert =>
    refine ⟨Or.inr rfl, ?_⟩
    simp only [segments_of_opcode, List.mem_map, List.mem_range] at hs'
    obtain ⟨t, ht, hrec⟩ := hs'
    subst hrec
    have hins : i1 = i2 := by
      have := hfacts.1
      unfold TagOK at this
      simpa using this.1
    simp only
    unfold estimate_missing_time
    rw [← hins]
    exact ⟨rfl, rfl⟩

/-- C4 (witness): the missing-time rule applied to a concrete missing
segment (a one-word transcript against a two-word manuscript). -/
theorem c4_missing_segment_times_witness :
    (⟨"", "b", 1, 1, 0, "word", 1, "missing", none⟩ : AlignedSegment)
        ∈ align_transcript_to_manuscript (wordsOf ["a"]) "a b"
    ∧ ∃ op ∈ get_opcodes ((wordsOf ["a"]).map fun w => normalize_word w.word)
          (normalize_text_to_words "a b"),
        (op.tag = Tag.replace ∨ op.tag = Tag.insert)
        ∧ (1 : ℚ) = (if op.i2 < (wordsOf ["a"]).length
              then ((wordsOf ["a"]).getD op.i2 default).start
            else if 0 < op.i1 then ((wordsOf ["a"]).getD (op.i1 - 1) default).stop else 0)
        ∧ (1 : ℚ) = (if op.i2 < (wordsOf ["a"]).length
              then ((wordsOf ["a"]).getD op.i2 default).start
            else if 0 < op.i1 then ((wordsOf ["a"]).getD (op.i1 - 1) default).stop else 0) :=
  ⟨by decide,
   c4_missing_segment_times (wordsOf ["a"]) "a b"
     ⟨"", "b", 1, 1, 0, "word", 1, "missing", none⟩ (by decide) (by decide)⟩

/-! ## Token counting (C3) -/

theorem normalize_text_to_words_ne_empty (text : String) :
    ∀ w ∈ normalize_text_to_words text, w ≠ "" := by
  intro w hw
  unfold normalize_text_to_words at hw
  have := List.of_mem_filter hw
  simpa using this

theorem countP_range_lt (n m : Nat) :
    ((List.range m).countP fun k => decide (k < n)) = min n m := by
  induction m with
  | zero => simp
  | succ m ih =>
    rw [List.range_succ, List.countP_append, ih]
    by_cases h : m < n <;> simp [List.countP_cons, h] <;> omega

theorem getD_mem_of_lt {α : Type} [Inhabited α] (l : List α) (n : Nat) (h : n < l.length) :
    l.getD n default ∈ l := by
  rw [List.getD_eq_getElem l default h]
  exact List.getElem_mem h

theorem segments_count_text (tws : List TranscriptWord) (mwords : List String)
    (op : Opcode) (sidx : Nat) (hw : ∀ w ∈ tws, w.word ≠ "")
    (htag : TagOK (tws.map fun w => normalize_word w.word) mwords op)
    (hbound : op.i2 ≤ tws.length) :
    ((segments_of_opcode tws mwords op sidx).countP fun s => decide (s.text ≠ ""))
      = op.i2 - op.i1 := by
  rcases op with ⟨tag, i1, i2, j1, j2⟩
  cases tag with
  | equal =>
    unfold TagOK at htag
    simp only at htag hbound ⊢
    rw [segments_of_opcode]
    simp only
    rw [List.countP_map]
    have hcnt : min (i2 - i1) (j2 - j1) = i2 - i1 := by omega
    rw [hcnt]
    have hall : ∀ t ∈ List.range (i2 - i1),
        ((fun s : AlignedSegment => decide (s.text ≠ "")) ∘ fun t =>
          ({ text := (tws.getD (i1 + t) default).word,
             expected_text := mwords.getD (j1 + t) "",
             start_time := (tws.getD (i1 + t) default).start,
             end_time := (tws.getD (i1 + t) default).stop,
             confidence := (tws.getD (i1 + t) default).confidence,
             segment_type := "word", segment_index := sidx + t,
             alignment := "match" } : AlignedSegment)) t = true := by
      intro t ht
      rw [List.mem_range] at ht
      have hmem := getD_mem_of_lt tws (i1 + t) (by omega)
      simpa using hw _ hmem
    calc ((List.range (i2 - i1)).countP _) = (List.range (i2 - i1)).length :=
          List.countP_eq_length.mpr hall
      _ = i2 - i1 := List.length_range _
  | replace =>
    unfold TagOK at htag
    simp only at htag hbound ⊢
    rw [segments_of_opcode]
    simp only
    rw [List.countP_map]
    have base := countP_range_lt (i2 - i1) (max (i2 - i1) (j2 - j1))
    have hmin : min (i2 - i1) (max (i2 - i1) (j2 - j1)) = i2 - i1 := by omega
    rw [hmin] at base
    conv_rhs => rw [← base]
    refine List.countP_congr ?_
    intro k hk
    rw [List.mem_range] at hk
    simp only [Function.comp]
    by_cases h1 : k < i2 - i1 ∧ k < j2 - j1
    · simp only [if_pos h1]
      have hmem := getD_mem_of_lt tws (i1 + k) (by omega)
      simp [h1.1]
      simpa [← List.getD_eq_getElem?_getD] using hw _ hmem
    · by_cases h2 : k < i2 - i1
      · simp only [if_neg h1, if_pos h2]
        have hmem := getD_mem_of_lt tws (i1 + k) (by omega)
        simp [h2]
        simpa [← List.getD_eq_getElem?_getD] using hw _ hmem
      · simp only [if_neg h1, if_neg h2]
        simp [h2]
  | insert =>
    unfold TagOK at htag
    simp only at htag ⊢
    rw [segments_of_opcode]
    simp only
    rw [List.countP_map]
    have hzero : ((List.range (j2 - j1)).countP
        ((fun s : AlignedSegment => decide (s.text ≠ "")) ∘ fun t =>
          ({ text := "", expected_text := mwords.getD (j1 + t) "",
             start_time := estimate_missing_time tws i1 i1,
             end_time := estimate_missing_time tws i1 i1, confidence := 0,
             segment_type := "word", segment_index := sidx + t,
             alignment := "missing" } : AlignedSegment))) = 0 := by
      rw [List.countP_eq_zero]
      intro t ht
      simp
    rw [hzero]
    omega
  | delete =>
    unfold TagOK at htag
    simp only at htag hbound ⊢
    rw [segments_of_opcode]
    simp only
    rw [List.countP_map]
    have hall : ∀ t ∈ List.range (i2 - i1),
        ((fun s : AlignedSegment => decide (s.text ≠ "")) ∘ fun t =>
          ({ text := (tws.getD (i1 + t) default).word, expected_text := "",
             start_time := (tws.getD (i1 + t) default).start,
             end_time := (tws.getD (i1 + t) default).stop,
             confidence := (tws.getD (i1 + t) default).confidence,
             segment_type := "word", segment_index := sidx + t,
             alignment := "extra" } : AlignedSegment)) t = true := by
      intro t ht
      rw [List.mem_range] at ht
      have hmem := getD_mem_of_lt tws (i1 + t) (by omega)
      simpa using hw _ hmem
    calc ((List.range (i2 - i1)).countP _) = (List.range (i2 - i1)).length :=
          List.countP_eq_length.mpr hall
      _ = i2 - i1 := List.length_range _

theorem segments_count_expected (tws : List TranscriptWord) (mwords : List String)
    (op : Opcode) (sidx : Nat) (hm : ∀ w ∈ mwords, w ≠ "")
    (htag : TagOK (tws.map fun w => normalize_word w.word) mwords op)
    (hbound : op.j2 ≤ mwords.length) :
    ((segments_of_opcode tws mwords op sidx).countP fun s => decide (s.expected_text ≠ ""))
      = op.j2 - op.j1 := by
  rcases op with ⟨tag, i1, i2, j1, j2⟩
  cases tag with
  | equal =>
    unfold TagOK at htag
    simp only at htag hbound ⊢
    rw [segments_of_opcode]
    simp only
    rw [List.countP_map]
    have hcnt : min (i2 - i1) (j2 - j1) = j2 - j1 := by omega
    rw [hcnt]
    have hall : ∀ t ∈ List.range (j2 - j1),
        ((fun s : AlignedSegment => decide (s.expected_text ≠ "")) ∘ fun t =>
          ({ text := (tws.getD (i1 + t) default).word,
             expected_text := mwords.getD (j1 + t) "",
             start_time := (tws.getD (i1 + t) default).start,
             end_time := (tws.getD (i1 + t) default).stop,
             confidence := (tws.getD (i1 + t) default).confidence,
             segment_type := "word", segment_index := sidx + t,
             alignment := "match" } : AlignedSegment)) t = true := by
      intro t ht
      rw [List.mem_range] at ht
      have hmem : mwords.getD (j1 + t) "" ∈ mwords := by
        rw [List.getD_eq_getElem mwords "" (by omega)]
        exact List.getElem_mem _
      simpa using hm _ hmem
    calc ((List.range (j2 - j1)).countP _) = (List.range (j2 - j1)).length :=
          List.countP_eq_length.mpr hall
      _ = j2 - j1 := List.length_range _
  | replace =>
    unfold TagOK at htag
    simp only at htag hbound ⊢
    rw [segments_of_opcode]
    simp only
    rw [List.countP_map]
    have base := countP_range_lt (j2 - j1) (max (i2 - i1) (j2 - j1))
    have hmin : min (j2 - j1) (max (i2 - i1) (j2 - j1)) = j2 - j1 := by omega
    rw [hmin] at base
    conv_rhs => rw [← base]
    refine List.countP_congr ?_
    intro k hk
    rw [List.mem_range] at hk
    simp only [Function.comp]
    by_cases h1 : k < i2 - i1 ∧ k < j2 - j1
    · simp only [if_pos h1]
      have hmem : mwords.getD (j1 + k) "" ∈ mwords := by
        rw [List.getD_eq_getElem mwords "" (by omega)]
        exact List.getElem_mem _
      simp [h1.2]
      simpa [← List.getD_eq_getElem?_getD] using hm _ hmem
    · by_cases h2 : k < i2 - i1
      · simp only [if_neg h1, if_pos h2]
        have hnm : ¬ k < j2 - j1 := fun hc => h1 ⟨h2, hc⟩
        simp [hnm]
      · simp only [if_neg h1, if_neg h2]
        have hkm : k < j2 - j1 := by omega
        have hmem : mwords.getD (j1 + k) "" ∈ mwords := by
          rw [List.getD_eq_getElem mwords "" (by omega)]
          exact List.getElem_mem _
        simp [hkm]
        simpa [← List.getD_eq_getElem?_getD] using hm _ hmem
  | insert =>
    unfold TagOK at htag
    simp only at htag hbound ⊢
    rw [segments_of_opcode]
    simp only
    rw [List.countP_map]
    have hall : ∀ t ∈ List.range (j2 - j1),
        ((fun s : AlignedSegment => decide (s.expected_text ≠ "")) ∘ fun t =>
          ({ text := "", expected_text := mwords.getD (j1 + t) "",
             start_time := estimate_missing_time tws i1 i1,
             end_time := estimate_missing_time tws i1 i1, confidence := 0,
             segment_type := "word", segment_index := sidx + t,
             alignment := "missing" } : AlignedSegment)) t = true := by
      intro t ht
      rw [List.mem_range] at ht
      have hmem : mwords.getD (j1 + t) "" ∈ mwords := by
        rw [List.getD_eq_getElem mwords "" (by omega)]
        exact List.getElem_mem _
      simpa using hm _ hmem
    calc ((List.range (j2 - j1)).countP _) = (List.range (j2 - j1)).length :=
          List.countP_eq_length.mpr hall
      _ = j2 - j1 := List.length_range _
  | delete =>
    unfold TagOK at htag
    simp only at htag ⊢
    rw [segments_of_opcode]
    simp only
    rw [List.countP_map]
    have hzero : ((List.range (i2 - i1)).countP
        ((fun s : AlignedSegment => decide (s.expected_text ≠ "")) ∘ fun t =>
          ({ text := (tws.getD (i1 + t) default).word, expected_text := "",
             start_time := (tws.getD (i1 + t) default).start,
             end_time := (tws.getD (i1 + t) default).stop,
             confidence := (tws.getD (i1 + t) default).confidence,
             segment_type := "word", segment_index := sidx + t,
             alignment := "extra" } : AlignedSegment))) = 0 := by
      rw [List.countP_eq_zero]
      intro t ht
      simp
    rw [hzero]
    omega

theorem align_from_opcodes_countP (tws : List TranscriptWord) (mwords : List String)
    (p : AlignedSegment → Bool) (f : Opcode → Nat) :
    ∀ (ops : List Opcode) (sidx : Nat),
      (∀ op ∈ ops, ∀ s', ((segments_of_opcode tws mwords op s').countP p) = f op) →
      ((align_from_opcodes tws mwords ops sidx).countP p) = (ops.map f).sum := by
  intro ops
  induction ops with
  | nil => intro sidx _; rfl
  | cons op rest ih =>
    intro sidx hops
    rw [align_from_opcodes, List.countP_append, List.map_cons, List.sum_cons,
      hops op (List.mem_cons_self _ _) sidx,
      ih _ fun op' hop' s' => hops op' (List.mem_cons_of_mem _ hop') s']

/-- C3: for every transcript whose surface words are non-empty, the number of
aligned segments with non-empty `text` equals the number of transcript
words; and (for every transcript and manuscript) the number of segments with
non-empty `expected_text` equals the number of manuscript tokens. -/
theorem c3_token_counts :
    (∀ (tws : List TranscriptWord) (mtext : String), (∀ w ∈ tws, w.word ≠ "") →
      ((align_transcript_to_manuscript tws mtext).countP fun s => decide (s.text ≠ ""))
        = tws.length)
    ∧ ∀ (tws : List TranscriptWord) (mtext : String),
      ((align_transcript_to_manuscript tws mtext).countP fun s => decide (s.expected_text ≠ ""))
        = (normalize_text_to_words mtext).length := by
  constructor
  · intro tws mtext hw
    unfold align_transcript_to_manuscript
    have hchain := get_opcodes_chain (tws.map fun w => normalize_word w.word)
      (normalize_text_to_words mtext)
    rw [align_from_opcodes_countP tws _ _ (fun op => op.i2 - op.i1) _ 0 ?hops]
    case hops =>
      intro op hop s'
      have hfacts := opsChain_mem _ _ _ 0 0 _ _ hchain op hop
      refine segments_count_text tws _ op s' hw hfacts.1 ?_
      have := hfacts.2.2.2.1
      simpa using this
    have hsum := (opsChain_sum _ _ _ 0 0 _ _ hchain).1
    rw [hsum]
    simp
  · intro tws mtext
    unfold align_transcript_to_manuscript
    have hchain := get_opcodes_chain (tws.map fun w => normalize_word w.word)
      (normalize_text_to_words mtext)
    rw [align_from_opcodes_countP tws _ _ (fun op => op.j2 - op.j1) _ 0 ?hops]
    case hops =>
      intro op hop s'
      have hfacts := opsChain_mem _ _ _ 0 0 _ _ hchain op hop
      exact segments_count_expected tws _ op s'
        (normalize_text_to_words_ne_empty mtext) hfacts.1 hfacts.2.2.2.2
    have hsum := (opsChain_sum _ _ _ 0 0 _ _ hchain).2
    rw [hsum]
    simp

/-- C3 (counterexample): a transcript word whose surface text is the empty
string yields a segment with empty `text`, so the non-empty-text count (0)
falls short of the transcript token count (1). -/
theorem c3_counterexample :
    ¬ (((align_transcript_to_manuscript [⟨"", 0, 1, 1⟩] "").countP
          fun s => decide (s.text ≠ "")) = 1
       ∧ ((align_transcript_to_manuscript [⟨"", 0, 1, 1⟩] "").countP
          fun s => decide (s.expected_text ≠ "")) = 0) := by
  intro h
  exact absurd h.1 (by decide)

/-- C3 (witness): the counting theorem applied to a concrete two-word
transcript and manuscript. -/
theorem c3_token_counts_witness :
    ((align_transcript_to_manuscript (wordsOf ["hi","there"]) "hi there").countP
        fun s => decide (s.text ≠ "")) = (wordsOf ["hi","there"]).length
    ∧ ((align_transcript_to_manuscript (wordsOf ["hi","there"]) "hi there").countP
        fun s => decide (s.expected_text ≠ ""))
      = (normalize_text_to_words "hi there").length :=
  ⟨c3_token_counts.1 (wordsOf ["hi","there"]) "hi there" (by decide),
   c3_token_counts.2 (wordsOf ["hi","there"]) "hi there"⟩

/-! ## Equal-sequence completeness of the matcher (C8)

When the two compared sequences are the same list `a` of length `n`, the
dynamic scan of `find_longest_match` over `[0, n) × [0, n)` finds the whole
diagonal `(0, 0, n)`, so `get_opcodes a a` is a single `equal` opcode. -/

theorem selfRow_le (a : List String) : ∀ i j, selfRow a i j ≤ min (i + 1) (j + 1) := by
  intro i
  induction i with
  | zero =>
    intro j
    rw [selfRow]
    split
    · omega
    · omega
  | succ i ih =>
    intro j
    rw [selfRow]
    split
    · by_cases hj : j = 0
      · subst hj
        simp
      · have hle := ih (j - 1)
        simp only [if_neg hj]
        omega
    · omega

theorem selfRow_diag (a : List String) : ∀ i, i < a.length → selfRow a i i = i + 1 := by
  intro i
  induction i with
  | zero =>
    intro h
    rw [selfRow]
    simp [h]
  | succ i ih =>
    intro h
    rw [selfRow]
    simp [h, ih (Nat.lt_of_succ_lt h)]

theorem selfRow_eq_zero (a : List String) (i j : Nat)
    (h : ¬ (j < a.length ∧ (a.getD j "" == a.getD i "") = true)) : selfRow a i j = 0 := by
  cases i with
  | zero =>
    rw [selfRow]
    exact if_neg h
  | succ i =>
    rw [selfRow]
    exact if_neg h

theorem occList_mem (b : List String) (x : String) (j : Nat) :
    j ∈ occList b x ↔ j < b.length ∧ (b.getD j "" == x) = true := by
  unfold occList
  rw [List.mem_filter, List.mem_range]

theorem occList_sorted (b : List String) (x : String) :
    List.Pairwise (· < ·) (occList b x) :=
  (List.pairwise_lt_range _).filter _

theorem mergeMapAux (f newm : Nat → Nat) (j : Nat) (js : List Nat) (v : Nat)
    (hv : v = f j) :
    (fun x => if x ∈ js then f x else if x = j then v else newm x)
      = fun x => if x ∈ j :: js then f x else newm x := by
  funext x
  by_cases h1 : x ∈ js
  · simp [h1, List.mem_cons.mpr (Or.inr h1)]
  · by_cases h2 : x = j
    · subst h2
      simp [h1, hv]
    · simp [h1, h2, List.mem_cons]

theorem flmInner_self_post (a : List String) (i : Nat) (old : Nat → Nat)
    (Hk : ∀ j, j < a.length → (a.getD j "" == a.getD i "") = true →
      (if j = 0 then 0 else old (j - 1)) + 1 = selfRow a i j) :
    ∀ (js : List Nat) (newm : Nat → Nat),
      (∀ j ∈ js, j < a.length ∧ (a.getD j "" == a.getD i "") = true) →
      flmInner 0 a.length i old js newm (0, 0, i + 1)
        = (fun x => if x ∈ js then selfRow a i x else newm x, (0, 0, i + 1)) := by
  intro js
  induction js with
  | nil =>
    intro newm _
    rw [flmInner]
    simp only [Prod.mk.injEq]
    exact ⟨funext fun x => by simp, trivial⟩
  | cons j js ih =>
    intro newm hjs
    obtain ⟨hjlen, hjocc⟩ := hjs j (List.mem_cons_self _ _)
    have hn1 : ¬ j < 0 := by omega
    have hn2 : ¬ a.length ≤ j := by omega
    simp only [flmInner, if_neg hn1, if_neg hn2]
    have hk : (if j = 0 then 0 else old (j - 1)) + 1 = selfRow a i j := Hk j hjlen hjocc
    rw [hk]
    have hle := selfRow_le a i j
    simp only [if_neg (by omega : ¬ i + 1 < selfRow a i j)]
    rw [ih (fun x => if x = j then selfRow a i j else newm x)
      (fun j' hj' => hjs j' (List.mem_cons_of_mem _ hj'))]
    rw [mergeMapAux (selfRow a i) newm j js (selfRow a i j) rfl]

theorem flmInner_self_pre (a : List String) (i : Nat) (old : Nat → Nat)
    (Hk : ∀ j, j < a.length → (a.getD j "" == a.getD i "") = true →
      (if j = 0 then 0 else old (j - 1)) + 1 = selfRow a i j) :
    ∀ (js : List Nat) (newm : Nat → Nat),
      (∀ j ∈ js, j < a.length ∧ (a.getD j "" == a.getD i "") = true) →
      List.Pairwise (· < ·) js →
      i ∈ js →
      flmInner 0 a.length i old js newm (0, 0, i)
        = (fun x => if x ∈ js then selfRow a i x else newm x, (0, 0, i + 1)) := by
  intro js
  induction js with
  | nil =>
    intro newm _ _ hmem
    exact absurd hmem (List.not_mem_nil _)
  | cons j js ih =>
    intro newm hjs hsort hmem
    obtain ⟨hjlen, hjocc⟩ := hjs j (List.mem_cons_self _ _)
    have hn1 : ¬ j < 0 := by omega
    have hn2 : ¬ a.length ≤ j := by omega
    simp only [flmInner, if_neg hn1, if_neg hn2]
    have hk : (if j = 0 then 0 else old (j - 1)) + 1 = selfRow a i j := Hk j hjlen hjocc
    rw [hk]
    obtain ⟨hgt, hsort'⟩ := List.pairwise_cons.mp hsort
    rcases Nat.lt_trichotomy j i with hji | hji | hji
    · have hle := selfRow_le a i j
      simp only [if_neg (by omega : ¬ i < selfRow a i j)]
      have hmem' : i ∈ js := by
        rcases List.mem_cons.mp hmem with h | h
        · omega
        · exact h
      rw [ih (fun x => if x = j then selfRow a i j else newm x)
        (fun j' hj' => hjs j' (List.mem_cons_of_mem _ hj')) hsort' hmem']
      rw [mergeMapAux (selfRow a i) newm j js (selfRow a i j) rfl]
    · subst hji
      rw [selfRow_diag a j hjlen]
      simp only [if_pos (Nat.lt_succ_self j), Nat.sub_self]
      rw [flmInner_self_post a j old Hk js _
        (fun j' hj' => hjs j' (List.mem_cons_of_mem _ hj'))]
      rw [mergeMapAux (selfRow a j) newm j js (j + 1) (selfRow_diag a j hjlen).symm]
    · exfalso
      rcases List.mem_cons.mp hmem with h | h
      · omega
      · exact absurd (hgt i h) (by omega)

theorem flmOuter_self (a : List String) :
    ∀ (d c : Nat) (m : Nat → Nat), c + d = a.length →
      (∀ j, j < a.length → (a.getD j "" == a.getD c "") = true →
        (if j = 0 then 0 else m (j - 1)) + 1 = selfRow a c j) →
      (flmOuter a a 0 a.length (List.range' c d) m (0, 0, c)).2 = (0, 0, a.length) := by
  intro d
  induction d with
  | zero =>
    intro c m hc _
    obtain rfl : c = a.length := by omega
    rw [List.range']
    rw [flmOuter]
  | succ d ih =>
    intro c m hc Hm
    have hcl : c < a.length := by omega
    have hocc : ∀ j ∈ occList a (a.getD c ""),
        j < a.length ∧ (a.getD j "" == a.getD c "") = true :=
      fun j hj => (occList_mem a _ j).mp hj
    have hmemc : c ∈ occList a (a.getD c "") :=
      (occList_mem a _ c).mpr ⟨hcl, beq_self_eq_true _⟩
    have hpre := flmInner_self_pre a c m Hm (occList a (a.getD c ""))
      (fun _ => 0) hocc (occList_sorted a _) hmemc
    have hfun : (flmInner 0 a.length c m (occList a (a.getD c ""))
        (fun _ => 0) (0, 0, c)).1 = selfRow a c := by
      rw [hpre]
      funext x
      dsimp only
      by_cases hx : x ∈ occList a (a.getD c "")
      · rw [if_pos hx]
      · rw [if_neg hx]
        exact (selfRow_eq_zero a c x fun hcn => hx ((occList_mem _ _ _).mpr hcn)).symm
    have hbest : (flmInner 0 a.length c m (occList a (a.getD c ""))
        (fun _ => 0) (0, 0, c)).2 = (0, 0, c + 1) := by
      rw [hpre]
    have Hm' : ∀ j, j < a.length → (a.getD j "" == a.getD (c + 1) "") = true →
        (if j = 0 then 0 else selfRow a c (j - 1)) + 1 = selfRow a (c + 1) j := by
      intro j hj ho
      have hrow : selfRow a (c + 1) j = (if j = 0 then 0 else selfRow a c (j - 1)) + 1 := by
        rw [selfRow]
        exact if_pos ⟨hj, ho⟩
      rw [hrow]
    rw [List.range']
    simp only [flmOuter]
    rw [hfun, hbest]
    exact ih (c + 1) (selfRow a c) (by omega) Hm'

theorem find_longest_match_self (a : List String) :
    find_longest_match a a 0 a.length 0 a.length = (0, 0, a.length) := by
  have hbase : ∀ j, j < a.length → (a.getD j "" == a.getD 0 "") = true →
      (if j = 0 then 0 else (fun _ => (0 : Nat)) (j - 1)) + 1 = selfRow a 0 j := by
    intro j hj ho
    have hrow : selfRow a 0 j = 1 := by
      rw [selfRow]
      exact if_pos ⟨hj, ho⟩
    rw [hrow]
    by_cases hj0 : j = 0 <;> simp [hj0]
  have houter := flmOuter_self a a.length 0 (fun _ => 0) (by omega) hbase
  simp only [find_longest_match, Nat.sub_zero, houter]
  simp [flmExtendLeft, flmExtendRight]

theorem find_longest_match_empty (a b : List String) (alo blo bhi : Nat) :
    find_longest_match a b alo alo blo bhi = (alo, blo, 0) := by
  simp only [find_longest_match, Nat.sub_self, List.range', flmOuter]
  cases alo with
  | zero => simp [flmExtendLeft, flmExtendRight]
  | succ n => simp [flmExtendLeft, flmExtendRight]

theorem matchingBlocksAux_empty (a b : List String) (alo blo bhi : Nat) :
    ∀ fuel, matchingBlocksAux a b fuel alo alo blo bhi = [] := by
  intro fuel
  cases fuel with
  | zero => rfl
  | succ f =>
    rw [matchingBlocksAux]
    simp [find_longest_match_empty]

theorem matchingBlocksAux_self (a : List String) (f : Nat) (hne : a.length ≠ 0) :
    matchingBlocksAux a a (f + 1) 0 a.length 0 a.length = [(0, 0, a.length)] := by
  rw [matchingBlocksAux]
  rw [find_longest_match_self]
  simp [matchingBlocksAux_empty, hne]

theorem get_matching_blocks_self (a : List String) (hne : a.length ≠ 0) :
    get_matching_blocks a a = [(0, 0, a.length), (a.length, a.length, 0)] := by
  unfold get_matching_blocks
  rw [show a.length + a.length = (a.length + a.length - 1) + 1 from by omega,
    matchingBlocksAux_self a _ hne]
  simp [mergeBlocks, hne]

theorem get_opcodes_self (a : List String) (hne : a.length ≠ 0) :
    get_opcodes a a = [⟨Tag.equal, 0, a.length, 0, a.length⟩] := by
  unfold get_opcodes
  rw [get_matching_blocks_self a hne]
  simp [opcodesFromBlocks, hne]

/-- C8 (amended): when the normalized transcript token sequence equals the
manuscript token sequence, `align_transcript_to_manuscript` returns exactly
`len(transcript_words)` segments, every one labeled `match` — but each
segment's `expected_text` is the *normalized* form of its raw `text`
(`expected_text = _normalize_word(text)`), not the raw text itself. -/
theorem c8_equal_tokens_alignment (tws : List TranscriptWord) (mtext : String)
    (h : (tws.map fun w => normalize_word w.word) = normalize_text_to_words mtext) :
    (align_transcript_to_manuscript tws mtext).length = tws.length
    ∧ ∀ seg ∈ align_transcript_to_manuscript tws mtext,
        seg.alignment = "match" ∧ seg.expected_text = normalize_word seg.text := by
  simp only [align_transcript_to_manuscript]
  rw [← h]
  by_cases htws : tws = []
  · subst htws
    simp [get_opcodes, get_matching_blocks, matchingBlocksAux, mergeBlocks,
      opcodesFromBlocks, align_from_opcodes]
  · have hne : (tws.map fun w => normalize_word w.word).length ≠ 0 := by
      simpa using fun hc => htws (List.eq_nil_of_length_eq_zero hc)
    rw [get_opcodes_self _ hne]
    rw [align_from_opcodes, align_from_opcodes, List.append_nil]
    rw [segments_of_opcode]
    simp only [List.length_map]
    constructor
    · simp
    · intro seg hseg
      simp only [List.mem_map, List.mem_range] at hseg
      obtain ⟨t, ht, rfl⟩ := hseg
      refine ⟨rfl, ?_⟩
      have htl : t < tws.length := by simpa using ht
      simpa using getD_map_normalize tws t htl

/-- C8 (counterexample): transcript `["Hello,"]` read against manuscript
"hello": the normalized token sequences agree (both are `["hello"]`), yet
the single match segment stores the normalized token "hello" as
`expected_text` while its `text` is the raw word "Hello,", so
`expected_text = text` fails. -/
theorem c8_counterexample :
    (([⟨"Hello,", 0, 1, 1⟩] : List TranscriptWord).map fun w => normalize_word w.word)
        = normalize_text_to_words "hello"
    ∧ ¬ ∀ seg ∈ align_transcript_to_manuscript [⟨"Hello,", 0, 1, 1⟩] "hello",
        seg.expected_text = seg.text := by
  refine ⟨by decide, fun h => ?_⟩
  have hmem := getD_mem_of_lt
    (align_transcript_to_manuscript [⟨"Hello,", 0, 1, 1⟩] "hello") 0 (by decide)
  have heq := h _ hmem
  have e1 : ((align_transcript_to_manuscript [⟨"Hello,", 0, 1, 1⟩] "hello").getD 0
      default).expected_text = "hello" := by decide
  have e2 : ((align_transcript_to_manuscript [⟨"Hello,", 0, 1, 1⟩] "hello").getD 0
      default).text = "Hello," := by decide
  rw [e1, e2] at heq
  exact absurd heq (by decide)

/-- C8 (witness): the amended theorem applied to the one-word transcript
`["hi"]` spoken exactly as in the manuscript "hi". -/
theorem c8_equal_tokens_alignment_witness :
    (((wordsOf ["hi"]).map fun w => normalize_word w.word) = normalize_text_to_words "hi")
    ∧ ((align_transcript_to_manuscript (wordsOf ["hi"]) "hi").length
          = (wordsOf ["hi"]).length
       ∧ ∀ seg ∈ align_transcript_to_manuscript (wordsOf ["hi"]) "hi",
           seg.alignment = "match" ∧ seg.expected_text = normalize_word seg.text) :=
  ⟨by decide, c8_equal_tokens_alignment (wordsOf ["hi"]) "hi" (by decide)⟩

end AudioAutoeditor
